import Mathlib

/-!
Verification development for the ulog-decoder repository.

The Rust sources are shallowly embedded. Symbol names and other strings are
modelled as `List Char`: Rust compares strings by their UTF-8 bytes, and
byte-lexicographic order on UTF-8 coincides with lexicographic order on code
points. Machine integers are `Nat`/`Int` with explicit reductions modulo
powers of two where the code casts or wraps; byte readers are `List Nat`
(each entry one byte value); fallible operations return `Except`/`Option`.
Recursions whose Rust counterpart is a loop over a shrinking slice carry an
explicit fuel argument so that every definition evaluates by kernel
reduction; lemmas establish that the fuel used is always sufficient.
-/

/-- Strings of the embedded program: lists of characters. -/
abbrev Str := List Char

/-! ## Three-way comparisons (Rust `Ord`) -/

/-- Three-way comparison on naturals: Rust's `Ord` for unsigned integers. -/
def cmpN (a b : Nat) : Ordering :=
  if a < b then .lt else if b < a then .gt else .eq

/-- Three-way comparison on characters by code point; equal to Rust's
byte-wise comparison of their UTF-8 encodings. -/
def cmpChar (a b : Char) : Ordering := cmpN a.toNat b.toNat

/-- Lexicographic comparison of char lists: Rust's `Ord for String`. -/
def cmpStr : Str → Str → Ordering
  | [], [] => .eq
  | [], _ :: _ => .lt
  | _ :: _, [] => .gt
  | a :: xs, b :: ys => (cmpChar a b).then (cmpStr xs ys)

/-- Lexicographic combination of two comparators: Rust's derived `Ord` on a
pair (compare first components, break ties with the second). -/
def cmpLex (c1 : α → α → Ordering) (c2 : β → β → Ordering) (x y : α × β) : Ordering :=
  (c1 x.1 y.1).then (c2 x.2 y.2)

/-- Boolean `a ≤ b` for a comparator: the comparison is not `gt`. -/
def ordIsLe (o : Ordering) : Bool :=
  match o with
  | .gt => false
  | _ => true

/-- A comparator decides equality. -/
def CmpEqIff (c : α → α → Ordering) : Prop := ∀ a b, c a b = .eq ↔ a = b

/-- Swapping the arguments of a comparator swaps the outcome. -/
def CmpSwap (c : α → α → Ordering) : Prop := ∀ a b, (c a b).swap = c b a

/-- Strict comparison outcomes compose transitively. -/
def CmpLtTrans (c : α → α → Ordering) : Prop :=
  ∀ a b d, c a b = .lt → c b d = .lt → c a d = .lt

theorem cmpN_eqIff : CmpEqIff cmpN := by
  intro a b
  unfold cmpN
  split_ifs <;> simp <;> omega

theorem cmpN_swap : CmpSwap cmpN := by
  intro a b
  unfold cmpN
  split_ifs <;> simp [Ordering.swap] <;> omega

theorem cmpN_lt_iff (a b : Nat) : cmpN a b = .lt ↔ a < b := by
  unfold cmpN
  split_ifs <;> simp <;> omega

theorem cmpN_ltTrans : CmpLtTrans cmpN := by
  intro a b d hab hbd
  rw [cmpN_lt_iff] at *
  omega

theorem charToNat_inj : ∀ a b : Char, a.toNat = b.toNat → a = b := by
  intro a b h
  exact Char.eq_of_val_eq (UInt32.eq_of_toBitVec_eq (BitVec.eq_of_toNat_eq h))

theorem cmpChar_eqIff : CmpEqIff cmpChar := by
  intro a b
  unfold cmpChar
  constructor
  · intro h
    exact charToNat_inj a b ((cmpN_eqIff _ _).mp h)
  · intro h
    subst h
    exact (cmpN_eqIff _ _).mpr rfl

theorem cmpChar_swap : CmpSwap cmpChar := fun a b => cmpN_swap a.toNat b.toNat

theorem cmpChar_ltTrans : CmpLtTrans cmpChar :=
  fun a b d hab hbd => cmpN_ltTrans a.toNat b.toNat d.toNat hab hbd

theorem ordering_then_eq_iff (o1 o2 : Ordering) :
    o1.then o2 = .eq ↔ o1 = .eq ∧ o2 = .eq := by
  cases o1 <;> cases o2 <;> simp [Ordering.then]

theorem ordering_then_swap (o1 o2 : Ordering) :
    (o1.then o2).swap = o1.swap.then o2.swap := by
  cases o1 <;> cases o2 <;> rfl

theorem cmpStr_eqIff : CmpEqIff cmpStr := by
  intro a
  induction a with
  | nil => intro b; cases b <;> simp [cmpStr]
  | cons x xs ih =>
    intro b
    cases b with
    | nil => simp [cmpStr]
    | cons y ys =>
      simp only [cmpStr, ordering_then_eq_iff]
      constructor
      · rintro ⟨h1, h2⟩
        rw [(cmpChar_eqIff _ _).mp h1, (ih ys).mp h2]
      · intro h
        injection h with h1 h2
        exact ⟨(cmpChar_eqIff _ _).mpr h1, (ih ys).mpr h2⟩

theorem cmpStr_swap : CmpSwap cmpStr := by
  intro a
  induction a with
  | nil => intro b; cases b <;> rfl
  | cons x xs ih =>
    intro b
    cases b with
    | nil => rfl
    | cons y ys => simp only [cmpStr, ordering_then_swap, cmpChar_swap x y, ih ys]

theorem then_lex_lt_trans {c1 : α → α → Ordering} (e1 : CmpEqIff c1) (t1 : CmpLtTrans c1)
    {a1 b1 d1 : α} {o2 p2 q2 : Ordering} (t2 : o2 = .lt → p2 = .lt → q2 = .lt)
    (hab : (c1 a1 b1).then o2 = .lt) (hbd : (c1 b1 d1).then p2 = .lt) :
    (c1 a1 d1).then q2 = .lt := by
  cases h1 : c1 a1 b1 with
  | lt =>
    cases h2 : c1 b1 d1 with
    | lt => rw [t1 a1 b1 d1 h1 h2]; rfl
    | eq =>
      have h2e := (e1 b1 d1).mp h2
      subst h2e
      rw [h1]; rfl
    | gt => rw [h2] at hbd; simp [Ordering.then] at hbd
  | eq =>
    have h1e := (e1 a1 b1).mp h1
    subst h1e
    rw [h1] at hab
    simp only [Ordering.then] at hab
    cases h2 : c1 a1 d1 with
    | lt => rfl
    | eq =>
      rw [h2] at hbd
      simp only [Ordering.then] at hbd
      simpa [Ordering.then] using t2 hab hbd
    | gt =>
      rw [h2] at hbd
      simp [Ordering.then] at hbd
  | gt => rw [h1] at hab; simp [Ordering.then] at hab

theorem cmpStr_ltTrans : CmpLtTrans cmpStr := by
  intro a
  induction a with
  | nil =>
    intro b d hab hbd
    cases b with
    | nil => exact hbd
    | cons y ys => cases d with
      | nil => simp [cmpStr] at hbd
      | cons z zs => rfl
  | cons x xs ih =>
    intro b d hab hbd
    cases b with
    | nil => simp [cmpStr] at hab
    | cons y ys =>
      cases d with
      | nil => simp [cmpStr] at hbd
      | cons z zs =>
        simp only [cmpStr] at hab hbd ⊢
        exact then_lex_lt_trans cmpChar_eqIff cmpChar_ltTrans (ih ys zs) hab hbd

theorem cmpLex_eqIff {c1 : α → α → Ordering} {c2 : β → β → Ordering}
    (h1 : CmpEqIff c1) (h2 : CmpEqIff c2) : CmpEqIff (cmpLex c1 c2) := by
  rintro ⟨a1, a2⟩ ⟨b1, b2⟩
  simp only [cmpLex, ordering_then_eq_iff, h1 a1 b1, h2 a2 b2, Prod.mk.injEq]

theorem cmpLex_swap {c1 : α → α → Ordering} {c2 : β → β → Ordering}
    (h1 : CmpSwap c1) (h2 : CmpSwap c2) : CmpSwap (cmpLex c1 c2) := by
  rintro ⟨a1, a2⟩ ⟨b1, b2⟩
  simp only [cmpLex, ordering_then_swap, h1 a1 b1, h2 a2 b2]

theorem cmpLex_ltTrans {c1 : α → α → Ordering} {c2 : β → β → Ordering}
    (e1 : CmpEqIff c1) (t1 : CmpLtTrans c1) (t2 : CmpLtTrans c2) :
    CmpLtTrans (cmpLex c1 c2) := by
  rintro ⟨a1, a2⟩ ⟨b1, b2⟩ ⟨d1, d2⟩ hab hbd
  simp only [cmpLex] at hab hbd ⊢
  exact then_lex_lt_trans e1 t1 (t2 a2 b2 d2) hab hbd

theorem ordIsLe_total {c : α → α → Ordering} (hs : CmpSwap c) :
    ∀ a b, (ordIsLe (c a b) || ordIsLe (c b a)) = true := by
  intro a b
  have hsw := hs a b
  cases h : c a b <;> rw [h] at hsw <;> rw [← hsw] <;> rfl

theorem ordIsLe_trans {c : α → α → Ordering} (he : CmpEqIff c) (ht : CmpLtTrans c) :
    ∀ a b d, ordIsLe (c a b) = true → ordIsLe (c b d) = true →
      ordIsLe (c a d) = true := by
  intro a b d hab hbd
  cases h1 : c a b with
  | gt => rw [h1] at hab; exact absurd hab (by decide)
  | eq =>
    have h1e := (he a b).mp h1
    subst h1e
    exact hbd
  | lt =>
    cases h2 : c b d with
    | gt => rw [h2] at hbd; exact absurd hbd (by decide)
    | eq =>
      have h2e := (he b d).mp h2
      subst h2e
      rw [h1]
      rfl
    | lt =>
      rw [ht a b d h1 h2]
      rfl

theorem ordIsLe_antisymm {c : α → α → Ordering} (he : CmpEqIff c) (hs : CmpSwap c) :
    ∀ a b, ordIsLe (c a b) = true → ordIsLe (c b a) = true → a = b := by
  intro a b hab hba
  have hsw := hs a b
  cases h1 : c a b with
  | gt => rw [h1] at hab; exact absurd hab (by decide)
  | eq => exact (he a b).mp h1
  | lt =>
    rw [h1] at hsw
    rw [← hsw] at hba
    exact absurd hba (by decide)

/-! ## Sorting

Rust's `sort_unstable_by`/`sorted_unstable_by` are modelled by an insertion
sort. Every property proved about the code below depends only on the output
being a permutation of the input sorted by the given comparator, which holds
for any comparison sort (the concrete Rust sort may permute elements with
equal keys differently; no stated property distinguishes such outputs). -/

def orderedInsert (le : α → α → Bool) (a : α) : List α → List α
  | [] => [a]
  | b :: l => if le a b then a :: b :: l else b :: orderedInsert le a l

def insertionSort (le : α → α → Bool) : List α → List α
  | [] => []
  | a :: l => orderedInsert le a (insertionSort le l)

theorem orderedInsert_perm (le : α → α → Bool) (a : α) :
    ∀ l, (orderedInsert le a l).Perm (a :: l)
  | [] => List.Perm.refl _
  | b :: l => by
    unfold orderedInsert
    split
    · exact List.Perm.refl _
    · exact ((orderedInsert_perm le a l).cons b).trans (List.Perm.swap a b l)

theorem insertionSort_perm (le : α → α → Bool) :
    ∀ l : List α, (insertionSort le l).Perm l
  | [] => List.Perm.refl _
  | a :: l => (orderedInsert_perm le a _).trans ((insertionSort_perm le l).cons a)

theorem orderedInsert_pairwise {le : α → α → Bool}
    (ltrans : ∀ a b d, le a b = true → le b d = true → le a d = true)
    (ltotal : ∀ a b, (le a b || le b a) = true) (a : α) :
    ∀ l, l.Pairwise (fun x y => le x y = true) →
      (orderedInsert le a l).Pairwise (fun x y => le x y = true) := by
  intro l
  induction l with
  | nil => intro _; exact List.pairwise_singleton _ a
  | cons b l ih =>
    intro h
    rw [List.pairwise_cons] at h
    obtain ⟨hb, hl⟩ := h
    unfold orderedInsert
    cases hab : le a b with
    | true =>
      simp only [hab, if_true]
      rw [List.pairwise_cons]
      refine ⟨?_, ?_⟩
      · intro x hx
        rcases List.mem_cons.mp hx with rfl | hxl
        · exact hab
        · exact ltrans a b x hab (hb x hxl)
      · rw [List.pairwise_cons]
        exact ⟨hb, hl⟩
    | false =>
      simp only [hab, Bool.false_eq_true, if_false]
      rw [List.pairwise_cons]
      refine ⟨?_, ih hl⟩
      intro x hx
      have hmem := (orderedInsert_perm le a l).mem_iff.mp hx
      rcases List.mem_cons.mp hmem with heq | hxl
      · rw [heq]
        have htot := ltotal a b
        rw [Bool.or_eq_true] at htot
        rcases htot with h1 | h1
        · rw [h1] at hab; exact absurd hab (by decide)
        · exact h1
      · exact hb x hxl

theorem insertionSort_pairwise {le : α → α → Bool}
    (ltrans : ∀ a b d, le a b = true → le b d = true → le a d = true)
    (ltotal : ∀ a b, (le a b || le b a) = true) :
    ∀ l : List α, (insertionSort le l).Pairwise (fun x y => le x y = true)
  | [] => List.Pairwise.nil
  | a :: l =>
    orderedInsert_pairwise ltrans ltotal a _ (insertionSort_pairwise ltrans ltotal l)

/-! ## Association lists (Rust `HashMap`)

`collect`ing an iterator of pairs into a `HashMap` inserts left to right; a
later pair with an existing key overwrites it.  Iteration order of the model
is insertion order; the Rust map iterates in an unspecified order, and every
property stated below is order-insensitive. -/

def assocInsert (k : Nat) (v : β) : List (Nat × β) → List (Nat × β)
  | [] => [(k, v)]
  | (k', v') :: rest =>
    if k' = k then (k, v) :: rest else (k', v') :: assocInsert k v rest

def assocGet (k : Nat) : List (Nat × β) → Option β
  | [] => none
  | (k', v') :: rest => if k' = k then some v' else assocGet k rest

/-- Collect a list of key-value pairs into a map, later keys overwriting. -/
def assocCollect (l : List (Nat × β)) : List (Nat × β) :=
  l.foldl (fun m kv => assocInsert kv.1 kv.2 m) []

/-! ## Bytes and machine integers -/

/-- Value of a big-endian byte list (`byteorder`'s `read_uN::<BE>` applied
to an N-byte buffer). -/
def beBytesToNat (bs : List Nat) : Nat := bs.foldl (fun acc b => acc * 256 + b) 0

/-- Reinterpret a `w`-byte unsigned value as two's-complement signed: models
Rust's `read_iN` reading the same bits as the unsigned buffer holds. -/
def toSigned (w : Nat) (u : Nat) : Int :=
  if u < 2 ^ (8 * w - 1) then (u : Int) else (u : Int) - 2 ^ (8 * w)

/-- Equality of `Except` values is decidable; lets concrete evaluations of
the embedded fallible functions close by `decide`. -/
instance {ε α : Type} [DecidableEq ε] [DecidableEq α] : DecidableEq (Except ε α) := fun a b =>
  match a, b with
  | .ok x, .ok y =>
    if h : x = y then isTrue (by rw [h])
    else isFalse (by intro he; cases he; exact h rfl)
  | .error e, .error f =>
    if h : e = f then isTrue (by rw [h])
    else isFalse (by intro he; cases he; exact h rfl)
  | .ok _, .error _ => isFalse (fun he => Except.noConfusion he)
  | .error _, .ok _ => isFalse (fun he => Except.noConfusion he)

/-! ## Segment splitter (src/splitter.rs) -/

inductive SplitSegmentError
  | nonAsciiDelim
  | unbalancedQuotes
  | partiallyQuotedField
  | unescapeError
deriving DecidableEq

/-- Hexadecimal value of a character, if any. -/
def hexVal (c : Char) : Option Nat :=
  if '0' ≤ c ∧ c ≤ '9' then some (c.toNat - '0'.toNat)
  else if 'a' ≤ c ∧ c ≤ 'f' then some (c.toNat - 'a'.toNat + 10)
  else if 'A' ≤ c ∧ c ≤ 'F' then some (c.toNat - 'A'.toNat + 10)
  else none

/-- Modelled from the spec: the quoted-field unescaper is the external
`unescaper` crate, not part of this repository; per the spec it decodes
"standard C-style sequences: `\n`, `\t`, `\\`, `\"`, `\xNN`, `\uNNNN`,
octal", failing on an invalid sequence (`UnescapeError`).  Characters other
than a backslash pass through unchanged. -/
def unescape : Str → Except Unit Str
  | [] => .ok []
  | '\\' :: esc =>
    match esc with
    | 'n' :: rest => (unescape rest).map ('\n' :: ·)
    | 't' :: rest => (unescape rest).map ('\t' :: ·)
    | 'r' :: rest => (unescape rest).map ('\r' :: ·)
    | '\\' :: rest => (unescape rest).map ('\\' :: ·)
    | '"' :: rest => (unescape rest).map ('"' :: ·)
    | '\'' :: rest => (unescape rest).map ('\'' :: ·)
    | 'x' :: h1 :: h2 :: rest =>
      match hexVal h1, hexVal h2 with
      | some a, some b => (unescape rest).map (Char.ofNat (16 * a + b) :: ·)
      | _, _ => .error ()
    | 'u' :: h1 :: h2 :: h3 :: h4 :: rest =>
      match hexVal h1, hexVal h2, hexVal h3, hexVal h4 with
      | some a, some b, some c, some d =>
        (unescape rest).map (Char.ofNat (4096 * a + 256 * b + 16 * c + d) :: ·)
      | _, _, _, _ => .error ()
    | c :: rest =>
      if '0' ≤ c ∧ c ≤ '7' then
        (unescape rest).map (Char.ofNat (c.toNat - '0'.toNat) :: ·)
      else .error ()
    | [] => .error ()
  | c :: rest => (unescape rest).map (c :: ·)

/-- The backslash-parity check of `split_segment_once`'s `find_next_quote`
closure: position `i - 1, i - 2, …` is scanned downwards while it holds a
backslash, the scan stopping before position 0 (the Rust loop runs while
`i > 1`); the result is `true` when an odd number of backslashes
immediately precedes position `i`, i.e. the quote at `i` is escaped. -/
def quote_escaped_at (s : Str) : Nat → Bool
  | i + 2 => if s.getD (i + 1) ' ' = '\\' then !quote_escaped_at s (i + 1) else false
  | _ => false

/-- Scan of `find_next_quote`: examine positions `pos, pos + 1, …` of `s`
and return the first one holding an unescaped quote.  (The Rust code jumps
from quote candidate to quote candidate with `find`; scanning every position
selects the same first unescaped quote.)  `suffix` is `s.drop pos`, carried
so that the recursion is structural. -/
def find_next_quote_aux (s : Str) : List Char → Nat → Option Nat
  | [], _ => none
  | c :: rest, pos =>
    if c = '"' ∧ quote_escaped_at s pos = false then some pos
    else find_next_quote_aux s rest (pos + 1)

/-- Rust `find_next_quote` (closure inside `split_segment_once`). -/
def find_next_quote (s : Str) (start : Nat) : Option Nat :=
  find_next_quote_aux s (s.drop start) start

/-- Rust `split_segment_once` (src/splitter.rs): split one field off a
delimited string; the second component is the rest of the string, `none`
when this was the last field. -/
def split_segment_once (s : Str) (delim : Char) :
    Except SplitSegmentError (Str × Option Str) :=
  if 127 < delim.toNat then .error .nonAsciiDelim
  else if s.isEmpty then .ok ([], none)
  else if s.headD ' ' ≠ '"' then
    let segEnd := s.findIdx (· == delim)
    let seg := s.take segEnd
    let rest0 := s.drop segEnd
    .ok (seg, if rest0.isEmpty then none else some (rest0.drop 1))
  else
    match find_next_quote s 1 with
    | none => .error .unbalancedQuotes
    | some endQuote =>
      let rest0 := s.drop endQuote
      if (rest0.drop 1).headD delim ≠ delim then .error .partiallyQuotedField
      else
        let seg := (s.take endQuote).drop 1
        let rest1 := rest0.drop 1
        let rest := if rest1.isEmpty then none else some (rest1.drop 1)
        match unescape seg with
        | .error _ => .error .unescapeError
        | .ok u => .ok (u, rest)

/-- Loop body of Rust `split_segments`, with explicit fuel: the remainder
shrinks strictly at every step (`split_segment_once_rest_lt`), so
`s.length + 1` steps always suffice and the fuel-exhausted branch is
unreachable. -/
def split_segments_go (delim : Char) : Nat → Str → Except SplitSegmentError (List Str)
  | 0, _ => .error .unbalancedQuotes
  | fuel + 1, s =>
    match split_segment_once s delim with
    | .error e => .error e
    | .ok (seg, none) => .ok [seg]
    | .ok (seg, some rest) => (split_segments_go delim fuel rest).map (seg :: ·)

/-- Rust `split_segments` (src/splitter.rs). -/
def split_segments (s : Str) (delim : Char) : Except SplitSegmentError (List Str) :=
  split_segments_go delim (s.length + 1) s

example : split_segments "14_meow_womp".toList '_' =
    .ok ["14".toList, "meow".toList, "womp".toList] := by decide
example : split_segments "".toList '_' = .ok [[]] := by decide
example : split_segments "1234_".toList '_' = .ok ["1234".toList, []] := by decide

example : split_segments "\"a".toList '_' = .error .unbalancedQuotes := by decide
example : split_segments "\"a\"b".toList '_' = .error .partiallyQuotedField := by decide
example : split_segments "\"a_b\"_c".toList '_' = .ok ["a_b".toList, "c".toList] := by decide
example : split_segments "123_45_6___\"me_ow\\\"_\"_".toList '_' =
    .ok ["123".toList, "45".toList, "6".toList, [], [],
         "me_ow\"_".toList, []] := by decide
example : split_segments "\"14_meow\"_".toList '_' = .ok ["14_meow".toList, []] := by decide

/-! ## Severity (src/severity.rs) -/

inductive SeverityLevel
  | emergency | alert | critical | error | warning | notice | info | debug | trace
deriving DecidableEq

inductive SeverityLevelParseError
  | unknownValue (value : Nat)
deriving DecidableEq

/-- Rust `TryFrom<usize> for SeverityLevel` (src/severity.rs). -/
def severity_try_from (value : Nat) : Except SeverityLevelParseError SeverityLevel :=
  match value with
  | 0 => .ok .emergency
  | 1 => .ok .alert
  | 2 => .ok .critical
  | 3 => .ok .error
  | 4 => .ok .warning
  | 5 => .ok .notice
  | 6 => .ok .info
  | 7 => .ok .debug
  | 8 => .ok .trace
  | v => .error (.unknownValue v)

/-- Rust `Display for SeverityLevel`, non-alternate branch. -/
def severityDisplay : SeverityLevel → Str
  | .emergency => "Emergency".toList
  | .alert => "Alert".toList
  | .critical => "Critical".toList
  | .error => "Error".toList
  | .warning => "Warning".toList
  | .notice => "Notice".toList
  | .info => "Info".toList
  | .debug => "Debug".toList
  | .trace => "Trace".toList

/-- Rust `Display for SeverityLevel`, alternate branch — the one used by the
main loop's `[{:#}]`.  Modelled from the spec for the styling: terminal color
rendering is external ("Severity label may be colorized; color is cosmetic"),
so the `owo_colors` wrappers are modelled as the identity on the label text.
The `Info` arm applies no styling in the source (`f.write_str("INFO")`), so
its label is exact. -/
def severityDisplayAlternate : SeverityLevel → Str
  | .emergency => "EMERGENCY".toList
  | .alert => "ALERT".toList
  | .critical => "CRITICAL".toList
  | .error => "ERROR".toList
  | .warning => "WARNING".toList
  | .notice => "NOTICE".toList
  | .info => "INFO".toList
  | .debug => "DEBUG".toList
  | .trace => "TRACE".toList

/-! ## Locations and identifiers (src/location.rs, src/elf.rs) -/

/-- Rust `Location` (src/location.rs): file and line, ordered by content
(file lexicographically, then line). -/
abbrev Location := Str × Nat

/-- Rust `MessageIdentifier` (src/elf.rs): `(Location, raw format text)`,
with the derived lexicographic `Ord`. -/
abbrev MessageIdentifier := Location × Str

/-- Derived `Ord for Location`. -/
def cmpLocation : Location → Location → Ordering := cmpLex cmpStr cmpN

/-- Derived `Ord for MessageIdentifier`. -/
def cmpMid : MessageIdentifier → MessageIdentifier → Ordering := cmpLex cmpLocation cmpStr

/-- Derived `Ord` on the argument sort key `(MessageIdentifier, usize)`. -/
def cmpArgKey : MessageIdentifier × Nat → MessageIdentifier × Nat → Ordering :=
  cmpLex cmpMid cmpN

theorem cmpMid_eqIff : CmpEqIff cmpMid :=
  cmpLex_eqIff (cmpLex_eqIff cmpStr_eqIff cmpN_eqIff) cmpStr_eqIff

theorem cmpMid_swap : CmpSwap cmpMid :=
  cmpLex_swap (cmpLex_swap cmpStr_swap cmpN_swap) cmpStr_swap

theorem cmpMid_ltTrans : CmpLtTrans cmpMid :=
  cmpLex_ltTrans (cmpLex_eqIff cmpStr_eqIff cmpN_eqIff)
    (cmpLex_ltTrans cmpStr_eqIff cmpStr_ltTrans cmpN_ltTrans) cmpStr_ltTrans

theorem cmpArgKey_eqIff : CmpEqIff cmpArgKey := cmpLex_eqIff cmpMid_eqIff cmpN_eqIff

theorem cmpArgKey_swap : CmpSwap cmpArgKey := cmpLex_swap cmpMid_swap cmpN_swap

theorem cmpArgKey_ltTrans : CmpLtTrans cmpArgKey :=
  cmpLex_ltTrans cmpMid_eqIff cmpMid_ltTrans cmpN_ltTrans

/-! ## UTF-8 lossy decoding (std `String::from_utf8_lossy`) -/

/-- Is the byte a UTF-8 continuation byte (`0x80 ..= 0xBF`)? -/
def isCont (c : Nat) : Bool := decide (128 ≤ c ∧ c ≤ 191)

/-- One step of `String::from_utf8_lossy`: decode the next code point from
`b :: rest`, or emit U+FFFD while consuming the invalid maximal subpart
(Unicode "substitution of maximal subparts", as Rust implements it).
Returns the produced character and the number of bytes consumed (≥ 1). -/
def utf8LossyStep (b : Nat) (rest : List Nat) : Char × Nat :=
  if b < 128 then (Char.ofNat b, 1)
  else if 194 ≤ b ∧ b ≤ 223 then
    match rest with
    | c1 :: _ =>
      if isCont c1 then (Char.ofNat ((b - 192) * 64 + (c1 - 128)), 2)
      else (Char.ofNat 65533, 1)
    | [] => (Char.ofNat 65533, 1)
  else if 224 ≤ b ∧ b ≤ 239 then
    match rest with
    | c1 :: rest1 =>
      let lo := if b = 224 then 160 else 128
      let hi := if b = 237 then 159 else 191
      if lo ≤ c1 ∧ c1 ≤ hi then
        match rest1 with
        | c2 :: _ =>
          if isCont c2 then
            (Char.ofNat ((b - 224) * 4096 + (c1 - 128) * 64 + (c2 - 128)), 3)
          else (Char.ofNat 65533, 2)
        | [] => (Char.ofNat 65533, 2)
      else (Char.ofNat 65533, 1)
    | [] => (Char.ofNat 65533, 1)
  else if 240 ≤ b ∧ b ≤ 244 then
    match rest with
    | c1 :: rest1 =>
      let lo := if b = 240 then 144 else 128
      let hi := if b = 244 then 143 else 191
      if lo ≤ c1 ∧ c1 ≤ hi then
        match rest1 with
        | c2 :: rest2 =>
          if isCont c2 then
            match rest2 with
            | c3 :: _ =>
              if isCont c3 then
                (Char.ofNat ((b - 240) * 262144 + (c1 - 128) * 4096 +
                  (c2 - 128) * 64 + (c3 - 128)), 4)
              else (Char.ofNat 65533, 3)
            | [] => (Char.ofNat 65533, 3)
          else (Char.ofNat 65533, 2)
        | [] => (Char.ofNat 65533, 2)
      else (Char.ofNat 65533, 1)
    | [] => (Char.ofNat 65533, 1)
  else (Char.ofNat 65533, 1)

/-- Driver of `String::from_utf8_lossy`, with fuel: every step consumes at
least one byte, so `bs.length` steps suffice. -/
def utf8LossyGo : Nat → List Nat → Str
  | 0, _ => []
  | _ + 1, [] => []
  | fuel + 1, b :: rest =>
    let step := utf8LossyStep b rest
    step.1 :: utf8LossyGo fuel (List.drop (step.2 - 1) rest)

/-- Rust `String::from_utf8_lossy` on a byte list. -/
def utf8Lossy (bs : List Nat) : Str := utf8LossyGo bs.length bs

example : utf8Lossy [104, 105] = "hi".toList := by decide
example : utf8Lossy [104, 200, 105] = ['h', Char.ofNat 65533, 'i'] := by decide
example : utf8Lossy [226, 130, 172] = "€".toList := by decide

/-! ## Argument model (src/ulog_argument.rs) -/

/-- Rust `ULogArgument`: a closed sum of typed argument slots.
Variable-width integer variants carry their byte `size`; every variant
carries an optional decoded value (`none` in a freshly parsed skeleton).
`Float`/`Double` values are kept as their raw big-endian bit patterns: the
IEEE-754 interpretation lives outside the embedding and no claim depends on
it, while the error behaviour (how many bytes are consumed, when `Io` is
returned) is preserved exactly. -/
inductive ULogArgument
  | slice (value : Option (List Nat))
  | float (value : Option Nat)
  | double (value : Option Nat)
  | string (value : Option Str)
  | bool (value : Option Bool)
  | ulogString (value : Option Str)
  | int8 (value : Option Int)
  | int16 (value : Option Int)
  | int32 (size : Nat) (value : Option Int)
  | int64 (size : Nat) (value : Option Int)
  | uint8 (value : Option Nat)
  | uint16 (value : Option Nat)
  | uint32 (size : Nat) (value : Option Nat)
  | uint64 (size : Nat) (value : Option Nat)
deriving DecidableEq

inductive ULogArgumentParseError
  | invalidTypeId (id : Nat)
deriving DecidableEq

/-- Rust `TryFrom<u8> for ULogArgument` (src/ulog_argument.rs): map a
type-id byte to a skeleton argument. -/
def ulog_argument_try_from (value : Nat) : Except ULogArgumentParseError ULogArgument :=
  if value = 1 then .ok (.slice none)
  else if value = 2 then .ok (.float none)
  else if value = 3 then .ok (.double none)
  else if value = 4 then .ok (.string none)
  else if value = 5 then .ok (.bool none)
  else if value = 6 then .ok (.ulogString none)
  else if value = 240 then .ok (.int8 none)
  else if value = 241 then .ok (.int16 none)
  else if 242 ≤ value ∧ value ≤ 243 then .ok (.int32 (value - 239) none)
  else if 244 ≤ value ∧ value ≤ 247 then .ok (.int64 (value - 239) none)
  else if value = 248 then .ok (.uint8 none)
  else if value = 249 then .ok (.uint16 none)
  else if 250 ≤ value ∧ value ≤ 251 then .ok (.uint32 (value - 247) none)
  else if 252 ≤ value ∧ value ≤ 255 then .ok (.uint64 (value - 247) none)
  else .error (.invalidTypeId value)

inductive ULogArgumentReadError
  | missingStringId
  | io
  | panicked
deriving DecidableEq

/-- Rust `ULogString` (src/ulog_string.rs). -/
structure ULogString where
  id : Nat
  string : Str
  location : Location
deriving DecidableEq

/-- Rust `ULogStringMap = HashMap<u16, ULogString>`. -/
abbrev ULogStringMap := List (Nat × ULogString)

/-- `read_exact`-style primitive on a byte list: take exactly `n` bytes or
fail with `Io` (Rust `ErrorKind::UnexpectedEof`); all the fixed-width
`read_uN::<BE>`/`read_iN::<BE>` calls reduce to it. -/
def readBytes (n : Nat) (input : List Nat) :
    Except ULogArgumentReadError (List Nat × List Nat) :=
  if n ≤ input.length then .ok (input.take n, input.drop n) else .error .io

/-- The variable-width unsigned read (`UInt32`/`UInt64` arms of
`ULogArgument::read`), transcribed step by step from the source:
`let mut buf = vec![0u8; size]` allocates a `size`-byte buffer (NOT the
full integer width); `let empty_bytes = width - size` underflows `usize`
and panics when `size > width`; the slice `buf[empty_bytes..]` panics when
`empty_bytes > size`; `read_exact` then fills that slice — only
`size - empty_bytes = 2*size - width` wire bytes — failing `Io` on a short
reader; finally `buf.as_slice().read_uN::<BE>()` reads `width` bytes from
the `size`-byte buffer, which fails `UnexpectedEof` (`Io`) whenever
`size < width`, and otherwise yields the big-endian value of the buffer's
first `width` bytes. -/
def read_uint_be (width size : Nat) (input : List Nat) :
    Except ULogArgumentReadError (Nat × List Nat) :=
  if width < size then .error .panicked
  else if size < width - size then .error .panicked
  else
    match readBytes (size - (width - size)) input with
    | .error e => .error e
    | .ok (taken, rest) =>
      let buf := List.replicate (width - size) 0 ++ taken
      if size < width then .error .io
      else .ok (beBytesToNat (buf.take width), rest)

/-- The variable-width signed read (`Int32`/`Int64` arms of
`ULogArgument::read`): as `read_uint_be` — same `vec![0u8; size]` buffer,
same `2*size - width`-byte `read_exact`, same always-failing full-width
read-back for `size < width` — plus the sign test `buf[empty_bytes] & 0x80`
(an index panic when `empty_bytes = size`, i.e. `width = 2*size`), which
fills the leading `width - size` buffer bytes with `0xFF` when the top bit
of the first byte read is set. -/
def read_int_be (width size : Nat) (input : List Nat) :
    Except ULogArgumentReadError (Int × List Nat) :=
  if width < size then .error .panicked
  else if size < width - size then .error .panicked
  else
    match readBytes (size - (width - size)) input with
    | .error e => .error e
    | .ok (taken, rest) =>
      if size ≤ width - size then .error .panicked
      else
        let fill := if 128 ≤ taken.headD 0 then 255 else 0
        let buf := List.replicate (width - size) fill ++ taken
        if size < width then .error .io
        else .ok (toSigned width (beBytesToNat (buf.take width)), rest)

/-- Rust `ULogArgument::read` (src/ulog_argument.rs): populate the value
field from a big-endian byte stream; returns the filled argument and the
unconsumed rest of the stream.  The `String` arm mirrors `read_until(0x00)`
— which also returns normally at end of input, without a trailing NUL —
followed by `&string[0 .. string.len() - 1]`, whose index computation
panics when nothing was read (`panicked`). -/
def ULogArgument.read (arg : ULogArgument) (string_map : ULogStringMap)
    (input : List Nat) :
    Except ULogArgumentReadError (ULogArgument × List Nat) :=
  match arg with
  | .slice _ =>
    match readBytes 4 input with
    | .error e => .error e
    | .ok (szb, r1) =>
      match readBytes (beBytesToNat szb) r1 with
      | .error e => .error e
      | .ok (data, r2) => .ok (.slice (some data), r2)
  | .float _ =>
    (readBytes 4 input).map fun br => (.float (some (beBytesToNat br.1)), br.2)
  | .double _ =>
    (readBytes 8 input).map fun br => (.double (some (beBytesToNat br.1)), br.2)
  | .string _ =>
    let k := input.findIdx (· == 0)
    let consumed := input.take (k + 1)
    let rest := input.drop (k + 1)
    if consumed.isEmpty then .error .panicked
    else .ok (.string (some (utf8Lossy (consumed.take (consumed.length - 1)))), rest)
  | .bool _ =>
    (readBytes 1 input).map fun br => (.bool (some (decide (beBytesToNat br.1 ≠ 0))), br.2)
  | .ulogString _ =>
    match readBytes 2 input with
    | .error e => .error e
    | .ok (b, r) =>
      match assocGet (beBytesToNat b) string_map with
      | none => .error .missingStringId
      | some s => .ok (.ulogString (some s.string), r)
  | .int8 _ =>
    (readBytes 1 input).map fun br => (.int8 (some (toSigned 1 (beBytesToNat br.1))), br.2)
  | .int16 _ =>
    (readBytes 2 input).map fun br => (.int16 (some (toSigned 2 (beBytesToNat br.1))), br.2)
  | .int32 size _ =>
    (read_int_be 4 size input).map fun vr => (.int32 size (some vr.1), vr.2)
  | .int64 size _ =>
    (read_int_be 8 size input).map fun vr => (.int64 size (some vr.1), vr.2)
  | .uint8 _ =>
    (readBytes 1 input).map fun br => (.uint8 (some (beBytesToNat br.1)), br.2)
  | .uint16 _ =>
    (readBytes 2 input).map fun br => (.uint16 (some (beBytesToNat br.1)), br.2)
  | .uint32 size _ =>
    (read_uint_be 4 size input).map fun vr => (.uint32 size (some vr.1), vr.2)
  | .uint64 size _ =>
    (read_uint_be 8 size input).map fun vr => (.uint64 size (some vr.1), vr.2)

example : ULogArgument.read (.int32 3 none) [] [0x80, 0, 0] = .error .io := by decide
example : ULogArgument.read (.int32 4 none) [] [0x80, 0, 0, 0] =
    .ok (.int32 4 (some (-2147483648)), []) := by decide
example : ULogArgument.read (.uint64 8 none) [] [0, 0, 0, 0, 0, 0, 1, 2] =
    .ok (.uint64 8 (some 258), []) := by decide
example : ULogArgument.read (.string none) [] [104, 105, 0, 7] =
    .ok (.string (some "hi".toList), [7]) := by decide
example : ULogArgument.read (.string none) [] [] = .error .panicked := by decide
example : ULogArgument.read (.string none) [] [104] =
    .ok (.string (some []), []) := by decide

/-! ## Format templates (external `dyf` crate) -/

/-- Modelled from the spec: the format-template engine is the external `dyf`
crate ("Format-string parsing and substitution are delegated to an external
formatting library"); a compiled template is modelled as its source text.
The spec's pairing step uses `to_string_lossy` of a compiled template as the
original format text, so compilation is the identity and always succeeds in
the model. -/
abbrev FormatString := Str

/-- Decimal rendering of a natural. -/
def natDec (n : Nat) : Str := Nat.toDigits 10 n

/-- Decimal rendering of an integer. -/
def intDec (i : Int) : Str := if i < 0 then '-' :: natDec i.natAbs else natDec i.natAbs

/-- Rendering of one decoded argument value (`DynDisplay for ULogArgument`):
an unset value renders as `(nil)`; numeric and boolean values render in
their usual decimal forms.  `Slice` renders as a lowercase-hex byte list and
float bit patterns render as a placeholder; no claim depends on those
cases. -/
def renderValue : ULogArgument → Str
  | .slice (some v) =>
    '[' :: List.intercalate ", ".toList (v.map (fun b => Nat.toDigits 16 b)) ++ [']']
  | .string (some s) => s
  | .ulogString (some s) => s
  | .bool (some b) => if b then "true".toList else "false".toList
  | .int8 (some i) => intDec i
  | .int16 (some i) => intDec i
  | .int32 _ (some i) => intDec i
  | .int64 _ (some i) => intDec i
  | .uint8 (some n) => natDec n
  | .uint16 (some n) => natDec n
  | .uint32 _ (some n) => natDec n
  | .uint64 _ (some n) => natDec n
  | .float (some _) => "(float)".toList
  | .double (some _) => "(float)".toList
  | _ => "(nil)".toList

/-- Modelled from the spec: template rendering substitutes the rendered
argument values for successive `\x7b\x7d` placeholders; a template without
placeholders renders as its literal text. -/
def dyfFormat : FormatString → List ULogArgument → Str
  | [], _ => []
  | '\x7b' :: '\x7d' :: rest, a :: args => renderValue a ++ dyfFormat rest args
  | '\x7b' :: '\x7d' :: rest, [] => dyfFormat rest []
  | c :: rest, args => c :: dyfFormat rest args

/-! ## Message model (src/ulog_message.rs) -/

/-- Rust `ULogMessage`. -/
structure ULogMessage where
  id : Nat
  format : FormatString
  location : Location
  severity_level : SeverityLevel
  arguments : List ULogArgument
deriving DecidableEq

/-- Rust `ULogMessageMap = HashMap<u16, ULogMessage>`. -/
abbrev ULogMessageMap := List (Nat × ULogMessage)

inductive ULogMessageFormatError
  | format
  | ulogArgumentRead (number : Nat) (e : ULogArgumentReadError)
deriving DecidableEq

/-- The decoding loop of `ULogMessage::formatted_string`: decode each
argument skeleton in declaration order, reporting the 0-based ordinal of a
failing argument. -/
def readArgumentsGo (string_map : ULogStringMap) :
    List ULogArgument → List Nat → Nat →
    Except (Nat × ULogArgumentReadError) (List ULogArgument × List Nat)
  | [], input, _ => .ok ([], input)
  | a :: rest, input, idx =>
    match a.read string_map input with
    | .error e => .error (idx, e)
    | .ok (a', input') =>
      (readArgumentsGo string_map rest input' (idx + 1)).map fun pr => (a' :: pr.1, pr.2)

/-- Rust `ULogMessage::formatted_string`: clone the skeletons, decode the
values, feed them to the compiled template. -/
def ULogMessage.formatted_string (m : ULogMessage) (input : List Nat)
    (string_map : ULogStringMap) : Except ULogMessageFormatError Str :=
  match readArgumentsGo string_map m.arguments input 0 with
  | .error ie => .error (.ulogArgumentRead ie.1 ie.2)
  | .ok (args, _) => .ok (dyfFormat m.format args)

/-- Rust `ULogSystemInfo` (src/ulog_system_info.rs). -/
structure ULogSystemInfo where
  ulog_strings : ULogStringMap
  messages : ULogMessageMap
  system_id : Nat
deriving DecidableEq

/-! ## Argument-to-message pairing (src/elf.rs, lines 311-416) -/

/-- The merge walk of `attempt_load_elf`: for each argument in order,
advance the message pointer until the peeked message's identifier matches,
then append the argument to that message's list (the pointer stays on the
matched message, so consecutive arguments with the same identifier
accumulate on it); if the messages run out while arguments remain the walk
fails — `OrphanedArguments`, modelled as `none`.  `keyA`/`keyM` project the
identifiers; the payloads `A` and `M` are never inspected.  Fuel: each step
consumes an argument or a message, so `args.length + msgs.length + 1` steps
suffice and the fuel-exhausted branch is unreachable (the `pairWalk_*`
lemmas assume at least that much fuel). -/
def pairWalk (keyA : A → MessageIdentifier) (keyM : M → MessageIdentifier) :
    Nat → List A → List (M × List A) → Option (List (M × List A))
  | 0, _, _ => none
  | _ + 1, [], msgs => some msgs
  | _ + 1, _ :: _, [] => none
  | fuel + 1, a :: args, (m, acc) :: msgs =>
    if keyA a = keyM m then
      pairWalk keyA keyM fuel args ((m, acc ++ [a]) :: msgs)
    else
      (pairWalk keyA keyM fuel (a :: args) msgs).map fun r => (m, acc) :: r

/-- An argument member ready for pairing: the `(MessageIdentifier, sequence
number)` sort key and the parsed skeleton. -/
abbrev ArgEntry := (MessageIdentifier × Nat) × ULogArgument

/-- The sorting-and-pairing stage of `attempt_load_elf` (lines 311-416):
sort the argument entries by `(MessageIdentifier, sequence number)`, the
messages by `MessageIdentifier`, and run the merge walk with every message
starting from an empty argument list.  The messages are `(identifier, map
key)` pairs.  The source projects each entry to `(identifier, skeleton)`
before the walk; the walk never inspects its payload, so the embedding
walks the full entries — keyed by their identifier, the identical algorithm
— letting the theorems speak about sequence numbers, and the loader
projects the skeletons out of the walk's result. -/
def pairAll (entries : List ArgEntry) (msgs : List (MessageIdentifier × Nat)) :
    Option (List ((MessageIdentifier × Nat) × List ArgEntry)) :=
  let sortedArgs := insertionSort (fun a b => ordIsLe (cmpArgKey a.1 b.1)) entries
  let sortedMsgs :=
    (insertionSort (fun a b => ordIsLe (cmpMid a.1 b.1)) msgs).map fun m => (m, ([] : List ArgEntry))
  pairWalk (fun e : ArgEntry => e.1.1) Prod.fst
    (sortedArgs.length + sortedMsgs.length + 1) sortedArgs sortedMsgs

/-! ## Dictionary loader (src/elf.rs) -/

/-- Rust `ElfSymbol` (src/elf.rs): a member symbol of the `.ulog` section —
its metadata (the symbol name with the `__ulog_sym_` marker removed), its
address (`st_value`), and its position relative to the sub-section start. -/
structure ElfSym where
  name : Str
  addr : Nat
  rel_pos : Nat
deriving DecidableEq

inductive ElfSymbolParseError
  | segmentCountMismatch (expected actual : Nat)
  | invalidInteger
  | splitSegment (e : SplitSegmentError)
  | severityLevelParse (e : SeverityLevelParseError)
  | noMatchingLogLevel
  | ulogArgumentParse (e : ULogArgumentParseError)
  | elfParse
  | orphanedArguments
  | templateParse
  | nonArgumentInArguments
deriving DecidableEq

inductive ElfParseError
  | file
  | noStringTable
  | noULogSection
  | ulogSectionCompressed
  | elfParse
  | noSymbolTable
  | missingSymbol (symbol : Str)
  | elfSymbolParse (name : Str) (e : ElfSymbolParseError)
  | noSystemId
deriving DecidableEq

/-- The part of the ELF image the loader consumes, as handed over by the
external `elf` crate: the symbols whose `st_shndx` equals the `.ulog`
section index (each paired name-resolved through the string table with its
`st_value`), the section's bytes, and the image's endianness.  Opening the
file, parsing the ELF container, locating the section and rejecting
compressed sections happen in the external crate before this point. -/
structure ElfInput where
  symbols : List (Str × Nat)
  data : List Nat
  little_endian : Bool
deriving DecidableEq

/-- Rust `str::starts_with` on char lists (first argument: the pattern). -/
def strStarts : Str → Str → Bool
  | [], _ => true
  | _ :: _, [] => false
  | p :: ps, c :: cs => p == c && strStarts ps cs

/-- The `ulog_section_markers` prefilter plus `get_ulog_section_marker`:
find the marker with the given exact name among the symbols whose names
start with `_sulog` or `_eulog`, and return its address. -/
def get_ulog_section_marker (inp : ElfInput) (name : Str) : Except ElfParseError Nat :=
  let markers := inp.symbols.filter fun s =>
    strStarts "_sulog".toList s.1 || strStarts "_eulog".toList s.1
  match markers.find? (fun s => s.1 == name) with
  | none => .error (.missingSymbol name)
  | some s => .ok s.2

/-- Rust `get_ulog_section`: the members of sub-section `name` — symbols
whose address lies in `[_sulog_<name>, _eulog_<name>)` and whose name starts
with `__ulog_sym_`; the rest of the name is the member's metadata, and
`rel_pos = address − start`. -/
def get_ulog_section (inp : ElfInput) (name : Str) : Except ElfParseError (List ElfSym) :=
  match get_ulog_section_marker inp ("_sulog_".toList ++ name) with
  | .error e => .error e
  | .ok start =>
    match get_ulog_section_marker inp ("_eulog_".toList ++ name) with
    | .error e => .error e
    | .ok stop =>
      .ok (inp.symbols.filterMap fun s =>
        if start ≤ s.2 ∧ s.2 < stop then
          if strStarts "__ulog_sym_".toList s.1 then
            some ⟨s.1.drop 11, s.2, s.2 - start⟩
          else none
        else none)

/-- The `severity_level_max_ids` array: the nine `_eulog_level_*` marker
addresses, fetched in severity order. -/
def severity_level_max_ids (inp : ElfInput) : Except ElfParseError (List Nat) := do
  let m0 ← get_ulog_section_marker inp "_eulog_level_emergency".toList
  let m1 ← get_ulog_section_marker inp "_eulog_level_alert".toList
  let m2 ← get_ulog_section_marker inp "_eulog_level_critical".toList
  let m3 ← get_ulog_section_marker inp "_eulog_level_error".toList
  let m4 ← get_ulog_section_marker inp "_eulog_level_warning".toList
  let m5 ← get_ulog_section_marker inp "_eulog_level_notice".toList
  let m6 ← get_ulog_section_marker inp "_eulog_level_info".toList
  let m7 ← get_ulog_section_marker inp "_eulog_level_debug".toList
  let m8 ← get_ulog_section_marker inp "_eulog_level_trace".toList
  pure [m0, m1, m2, m3, m4, m5, m6, m7, m8]

/-- Rust `get_severity_level` (src/elf.rs): the severity of a member is
selected by the first index `i` (in the fixed order emergency … trace) with
`address < severity_level_max_ids[i]`; no match is `NoMatchingLogLevel`. -/
def get_severity_level (maxIds : List Nat) (id : Nat) :
    Except ElfSymbolParseError SeverityLevel :=
  match maxIds.findIdx? (fun m => decide (id < m)) with
  | none => .error .noMatchingLogLevel
  | some i =>
    match severity_try_from i with
    | .error e => .error (.severityLevelParse e)
    | .ok lvl => .ok lvl

/-- Rust `str::parse::<usize>`: an optional sign followed by at least one
ASCII digit. -/
def parse_usize (s : Str) : Option Nat :=
  let digits := if s.headD ' ' = '+' then s.drop 1 else s
  if digits.isEmpty then none
  else if digits.all (fun c => decide ('0' ≤ c ∧ c ≤ '9')) then
    some (digits.foldl (fun acc c => acc * 10 + (c.toNat - '0'.toNat)) 0)
  else none

/-- Per-member closure of the `ulog_strings` stage: split the metadata into
`file`, `line`, `value`; shape a `ULogString` keyed and identified by
`rel_pos as u16` — a truncating cast, modelled by `% 65536`. -/
def parse_string_member (x : ElfSym) : Except ElfParseError (Nat × ULogString) :=
  match split_segments x.name '_' with
  | .error e => .error (.elfSymbolParse x.name (.splitSegment e))
  | .ok [file, line, value] =>
    match parse_usize line with
    | none => .error (.elfSymbolParse x.name .invalidInteger)
    | some ln => .ok (x.rel_pos % 65536, ⟨x.rel_pos % 65536, value, (file, ln)⟩)
  | .ok segs => .error (.elfSymbolParse x.name (.segmentCountMismatch 3 segs.length))

/-- Per-member closure of the `ulog_messages` stage: split the metadata into
`file`, `line`, `format`; compile the template (always succeeds in the
model), derive the severity from the member's address, and shape a
`ULogMessage` keyed and identified by `rel_pos as u16` (`% 65536`) with an
empty argument list. -/
def parse_message_member (maxIds : List Nat) (x : ElfSym) :
    Except ElfParseError (Nat × ULogMessage) :=
  match split_segments x.name '_' with
  | .error e => .error (.elfSymbolParse x.name (.splitSegment e))
  | .ok [file, line, format] =>
    match parse_usize line with
    | none => .error (.elfSymbolParse x.name .invalidInteger)
    | some ln =>
      match get_severity_level maxIds x.addr with
      | .error e => .error (.elfSymbolParse x.name e)
      | .ok sev => .ok (x.rel_pos % 65536, ⟨x.rel_pos % 65536, format, (file, ln), sev, []⟩)
  | .ok segs => .error (.elfSymbolParse x.name (.segmentCountMismatch 3 segs.length))

/-- Per-member closure of the argument stage: split the metadata into
`file`, `line`, `format`, the literal `arg` and the decimal sequence
number; read the type-id byte stored in the section at the member's address
(`parse_u8_at` — width 1, so endianness is immaterial; out of bounds is an
ELF parse error); map it to a skeleton; and build the
`((identifier, sequence number), skeleton)` entry.  The source's
`SegmentCountMismatch` for this stage reports `expected: 4` even though five
segments are destructured; the literal value is preserved. -/
def parse_argument_member (inp : ElfInput) (sym : ElfSym) : Except ElfParseError ArgEntry :=
  match split_segments sym.name '_' with
  | .error e => .error (.elfSymbolParse sym.name (.splitSegment e))
  | .ok [file, line, format, constant_arg, idStr] =>
    if constant_arg ≠ "arg".toList then
      .error (.elfSymbolParse sym.name .nonArgumentInArguments)
    else
      match inp.data[sym.addr]? with
      | none => .error (.elfSymbolParse sym.name .elfParse)
      | some type_id =>
        match ulog_argument_try_from type_id with
        | .error e => .error (.elfSymbolParse sym.name (.ulogArgumentParse e))
        | .ok argument =>
          match parse_usize line, parse_usize idStr with
          | some ln, some seq => .ok ((((file, ln), format), seq), argument)
          | _, _ => .error (.elfSymbolParse sym.name .invalidInteger)
  | .ok segs => .error (.elfSymbolParse sym.name (.segmentCountMismatch 4 segs.length))

/-- Sequence a list of fallible parses, stopping at the first error: the
Rust `collect::<Result<Vec<_>, _>>` / `collect::<Result<…Map, _>>`. -/
def collectExcept : List (Except ε α) → Except ε (List α)
  | [] => .ok []
  | .error e :: _ => .error e
  | .ok a :: rest => (collectExcept rest).map (a :: ·)

/-- `parse_u16_at` of the external `elf` crate: two bytes at `offset` read
in the image's endianness; out of bounds is a parse error. -/
def parse_u16_at (little_endian : Bool) (offset : Nat) (data : List Nat) :
    Except ElfParseError Nat :=
  match data[offset]?, data[offset + 1]? with
  | some b0, some b1 => .ok (if little_endian then b0 + 256 * b1 else 256 * b0 + b1)
  | _, _ => .error .elfParse

/-- Rust `attempt_load_elf` (src/elf.rs), from the point where the external
`elf` crate has produced the `.ulog` symbols, section bytes and endianness.
`HashMap` collects become association lists in insertion order
(`assocCollect`); the Rust map's iteration order is unspecified and no
stated property depends on the model's choice.  The pairing stage walks the
sorted arguments and messages (`pairAll`) and writes each message's paired
skeletons back into the map; when the walk runs out of messages the load
fails with `OrphanedArguments` (wrapped by the source in `ElfSymbolParse`
with the `Debug` rendering of the offending identifier as the name — the
rendering is not modelled and the name is left empty). -/
def attempt_load_elf (inp : ElfInput) : Except ElfParseError ULogSystemInfo :=
  match severity_level_max_ids inp with
  | .error e => .error e
  | .ok maxIds =>
    match get_ulog_section inp "string".toList with
    | .error e => .error e
    | .ok stringSyms =>
      match collectExcept (stringSyms.map parse_string_member) with
      | .error e => .error e
      | .ok parsedStrings =>
        let ulog_strings := assocCollect parsedStrings
        match get_ulog_section inp "level".toList with
        | .error e => .error e
        | .ok levelSyms =>
          match collectExcept (levelSyms.map (parse_message_member maxIds)) with
          | .error e => .error e
          | .ok parsedMessages =>
            let ulog_messages := assocCollect parsedMessages
            match get_ulog_section inp "argument".toList with
            | .error e => .error e
            | .ok argSyms =>
              match collectExcept (argSyms.map (parse_argument_member inp)) with
              | .error e => .error e
              | .ok ulog_arguments =>
                let msgKeys := ulog_messages.map fun kv => ((kv.2.location, kv.2.format), kv.1)
                match pairAll ulog_arguments msgKeys with
                | none => .error (.elfSymbolParse [] .orphanedArguments)
                | some paired =>
                  let ulog_messages2 := ulog_messages.map fun kv =>
                    match paired.find? (fun p => p.1.2 == kv.1) with
                    | some p => (kv.1, { kv.2 with arguments := p.2.map (·.2) })
                    | none => kv
                  match get_ulog_section inp "meta".toList with
                  | .error e => .error e
                  | .ok metaSyms =>
                    match metaSyms.find? (fun x => x.name == "system_id".toList) with
                    | none => .error .noSystemId
                    | some sysSym =>
                      match parse_u16_at inp.little_endian sysSym.addr inp.data with
                      | .error e => .error e
                      | .ok system_id => .ok ⟨ulog_strings, ulog_messages2, system_id⟩

/-! ## Frame decoding and the main loop (src/main.rs) -/

inductive ULogDecoderError
  | fileSourceOpen
  | serialSourceOpen
  | noSerialSource
  | elfLoad (e : ElfParseError)
  | entryRead
  | rzcobs
  | systemIdRead
  | messageIdRead
  | unknownMessage
  | unknownSystem
  | argumentDecode (e : ULogArgumentReadError)
  | format (e : ULogMessageFormatError)
  | duplicateSystemId (system_id : Nat)
deriving DecidableEq

/-- One uppercase hexadecimal digit. -/
def hexDigitUpper (d : Nat) : Char :=
  if d < 10 then Char.ofNat (48 + d) else Char.ofNat (55 + d)

/-- Uppercase hexadecimal rendering of a natural without padding — Rust's
`{:X?}` on an integer (fuel: dividing by 16 at least halves the value, so
`n + 1` steps suffice). -/
def natHexUpperGo : Nat → Nat → Str
  | 0, _ => []
  | fuel + 1, n =>
    if n < 16 then [hexDigitUpper n]
    else natHexUpperGo fuel (n / 16) ++ [hexDigitUpper (n % 16)]

def natHexUpper (n : Nat) : Str := natHexUpperGo (n + 1) n

/-- The frame handler inside `main_inner`'s loop, after de-framing: parse
the big-endian system and message ids (failed reads are `SystemIdRead` /
`MessageIdRead`), resolve the system (`UnknownSystem`) and the message
(`UnknownMessage`), render the message against the remaining payload (any
failure surfaces as `Format`, matching the `context(FormatSnafu)` in the
source), and produce the printed line
`[<alternate severity>] <rendered>\n    From: 0x<system id hex>(file://<file>:<line>)`. -/
def handle_payload (systems : List (Nat × ULogSystemInfo)) (payload : List Nat) :
    Except ULogDecoderError Str :=
  match readBytes 2 payload with
  | .error _ => .error .systemIdRead
  | .ok (sb, r1) =>
    let system_id := beBytesToNat sb
    match readBytes 2 r1 with
    | .error _ => .error .messageIdRead
    | .ok (mb, r2) =>
      let message_id := beBytesToNat mb
      match assocGet system_id systems with
      | none => .error .unknownSystem
      | some system =>
        match assocGet message_id system.messages with
        | none => .error .unknownMessage
        | some message =>
          match message.formatted_string r2 system.ulog_strings with
          | .error e => .error (.format e)
          | .ok formatted =>
            .ok ('[' :: severityDisplayAlternate message.severity_level ++ "] ".toList ++
              formatted ++ "\n    From: 0x".toList ++ natHexUpper system_id ++
              "(file://".toList ++ message.location.1 ++ [':'] ++
              natDec message.location.2 ++ [')'])

/-- One read of the source (`read_until(0x00)` on the boxed reader): a
timeout error, another I/O error, or the bytes read — `[]` exactly at end
of input. -/
inductive ReadEvent
  | timedOut
  | ioError
  | chunk (bytes : List Nat)
deriving DecidableEq

/-- One observable action of a main-loop iteration. -/
inductive LoopOut
  | line (s : Str)
  | report (e : ULogDecoderError)
deriving DecidableEq

/-- One iteration of `main_inner`'s closure for a non-empty read: strip the
frame delimiter and hand `buf[0 .. len-1]` to the external rzcobs decoder
`rz` (`none` models a framing failure), then handle the payload. -/
def process_chunk (rz : List Nat → Option (List Nat))
    (systems : List (Nat × ULogSystemInfo)) (bytes : List Nat) :
    Except ULogDecoderError Str :=
  match rz (bytes.take (bytes.length - 1)) with
  | none => .error .rzcobs
  | some payload => handle_payload systems payload

/-- Rust `main_inner`'s message-handling loop over a stream of reads: a
`TimedOut` read error is silently retried; any other read error is reported
(`EntryRead`) and the loop continues; a non-empty chunk is processed and
its outcome — a stdout line or a stderr diagnostic — emitted, the loop
continuing in every case; an empty chunk is end of input and terminates.
The Boolean records whether the loop terminated by reaching end of input
within the given events (an exhausted event list models a reader that
blocks forever). -/
def main_loop (rz : List Nat → Option (List Nat))
    (systems : List (Nat × ULogSystemInfo)) : List ReadEvent → List LoopOut × Bool
  | [] => ([], false)
  | .timedOut :: rest => main_loop rz systems rest
  | .ioError :: rest =>
    let r := main_loop rz systems rest
    (.report .entryRead :: r.1, r.2)
  | .chunk [] :: _ => ([], true)
  | .chunk (b :: bs) :: rest =>
    let out := match process_chunk rz systems (b :: bs) with
      | .ok s => LoopOut.line s
      | .error e => LoopOut.report e
    let r := main_loop rz systems rest
    (out :: r.1, r.2)

/-! ## Concrete dictionary of the single-message end-to-end scenario -/

/-- The ELF input of the spec's seed case 1: one `level` member
`main.c_42_hello` whose address falls in the info partition, no `argument`
members, and a `meta` member `system_id` whose section bytes hold
`0x0001` (little-endian image). -/
def c8Input : ElfInput where
  symbols :=
    [("_sulog_string".toList, 0), ("_eulog_string".toList, 0),
     ("_sulog_level".toList, 0), ("_eulog_level".toList, 9),
     ("_eulog_level_emergency".toList, 1), ("_eulog_level_alert".toList, 2),
     ("_eulog_level_critical".toList, 3), ("_eulog_level_error".toList, 4),
     ("_eulog_level_warning".toList, 5), ("_eulog_level_notice".toList, 6),
     ("_eulog_level_info".toList, 7), ("_eulog_level_debug".toList, 8),
     ("_eulog_level_trace".toList, 9),
     ("__ulog_sym_main.c_42_hello".toList, 6),
     ("_sulog_argument".toList, 20), ("_eulog_argument".toList, 20),
     ("_sulog_meta".toList, 30), ("_eulog_meta".toList, 40),
     ("__ulog_sym_system_id".toList, 32)]
  data := List.replicate 32 0 ++ [1, 0]
  little_endian := true

/-- The dictionary loaded from `c8Input` (the load succeeds; see the C8
theorems). -/
def c8Info : ULogSystemInfo :=
  match attempt_load_elf c8Input with
  | .ok info => info
  | .error _ => ⟨[], [], 0⟩

/-- The line printed for the frame whose payload is `00 01 00 06`
(system `0x0001`, message id 6). -/
def c8Line : Str :=
  match handle_payload [(c8Info.system_id, c8Info)] [0, 1, 0, 6] with
  | .ok s => s
  | .error _ => []

example : c8Info.system_id = 1 := by decide
example : c8Line = "[INFO] hello\n    From: 0x1(file://main.c:42)".toList := by decide

/-! ## C4 — type-id mapping -/

/-- C4: constructing an argument skeleton from a type-id byte maps every
byte of 0..=255 other than 1-6, 240-255 — that is, 0 and 7 through 239, in
particular 239 — to an `InvalidTypeId` error carrying that byte, and maps
1 to Slice, 2 to Float, 3 to Double, 4 to String, 5 to Bool, 6 to
ULogString, 240 to Int8, 241 to Int16, 242/243 to Int32 of size 3/4,
244-247 to Int64 of sizes 5-8 (id − 239), 248 to UInt8, 249 to UInt16,
250/251 to UInt32 of size 3/4, and 252-255 to UInt64 of sizes 5-8
(id − 247). -/
theorem c4_type_id_mapping :
    (∀ b : Fin 256, (b.val = 0 ∨ (7 ≤ b.val ∧ b.val ≤ 239)) →
      ulog_argument_try_from b.val = .error (.invalidTypeId b.val)) ∧
    ulog_argument_try_from 1 = .ok (.slice none) ∧
    ulog_argument_try_from 2 = .ok (.float none) ∧
    ulog_argument_try_from 3 = .ok (.double none) ∧
    ulog_argument_try_from 4 = .ok (.string none) ∧
    ulog_argument_try_from 5 = .ok (.bool none) ∧
    ulog_argument_try_from 6 = .ok (.ulogString none) ∧
    ulog_argument_try_from 240 = .ok (.int8 none) ∧
    ulog_argument_try_from 241 = .ok (.int16 none) ∧
    ulog_argument_try_from 242 = .ok (.int32 3 none) ∧
    ulog_argument_try_from 243 = .ok (.int32 4 none) ∧
    ulog_argument_try_from 244 = .ok (.int64 5 none) ∧
    ulog_argument_try_from 245 = .ok (.int64 6 none) ∧
    ulog_argument_try_from 246 = .ok (.int64 7 none) ∧
    ulog_argument_try_from 247 = .ok (.int64 8 none) ∧
    ulog_argument_try_from 248 = .ok (.uint8 none) ∧
    ulog_argument_try_from 249 = .ok (.uint16 none) ∧
    ulog_argument_try_from 250 = .ok (.uint32 3 none) ∧
    ulog_argument_try_from 251 = .ok (.uint32 4 none) ∧
    ulog_argument_try_from 252 = .ok (.uint64 5 none) ∧
    ulog_argument_try_from 253 = .ok (.uint64 6 none) ∧
    ulog_argument_try_from 254 = .ok (.uint64 7 none) ∧
    ulog_argument_try_from 255 = .ok (.uint64 8 none) := by
  set_option maxRecDepth 4096 in decide

/-- C4 witness: the reserved type-id 239 is rejected with `InvalidTypeId
239`, through the quantified clause of the theorem. -/
theorem c4_type_id_mapping_witness :
    ulog_argument_try_from 239 = .error (.invalidTypeId 239) :=
  c4_type_id_mapping.1 ⟨239, by decide⟩ (by decide)

/-! ## C3 — severity classification -/

theorem get_severity_level_none_iff (maxIds : List Nat) (addr : Nat) :
    get_severity_level maxIds addr = .error .noMatchingLogLevel ↔
      ∀ m ∈ maxIds, ¬ addr < m := by
  unfold get_severity_level
  cases hfind : maxIds.findIdx? (fun m => decide (addr < m)) with
  | none =>
    rw [List.findIdx?_eq_none_iff] at hfind
    constructor
    · intro _ m hm
      have := hfind m hm
      simpa using this
    · intro _
      rfl
  | some i =>
    constructor
    · intro h
      exfalso
      cases hst : severity_try_from i with
      | ok lvl => simp [hst] at h
      | error e => simp [hst] at h
    · intro hall
      exfalso
      rw [List.findIdx?_eq_some_iff_getElem] at hfind
      obtain ⟨hi, hp, _⟩ := hfind
      have hmem : maxIds[i] ∈ maxIds := List.getElem_mem hi
      have := hall maxIds[i] hmem
      simp at hp
      exact this hp

theorem get_severity_level_smallest (maxIds : List Nat) (addr i : Nat)
    (hi : i < maxIds.length) (hlt : addr < maxIds.get ⟨i, hi⟩)
    (hmin : ∀ j (hj : j < maxIds.length), j < i → ¬ addr < maxIds.get ⟨j, hj⟩)
    (lvl : SeverityLevel) (hok : severity_try_from i = .ok lvl) :
    get_severity_level maxIds addr = .ok lvl := by
  unfold get_severity_level
  have hfind : maxIds.findIdx? (fun m => decide (addr < m)) = some i := by
    rw [List.findIdx?_eq_some_iff_getElem]
    refine ⟨hi, ?_, ?_⟩
    · simpa using hlt
    · intro j hji
      have := hmin j (Nat.lt_trans hji hi) hji
      simpa using this
  simp [hfind, hok]

/-- C3: the severity of a level-sub-section member is the smallest index
`i`, in the fixed order emergency, alert, critical, error, warning, notice,
info, debug, trace, whose end-marker address is strictly greater than the
member's address; an address not below any of the nine markers fails with
`NoMatchingLogLevel`; and — markers being strictly ascending — a member at
exactly the exclusive maximum address of the warning partition classifies
into notice. -/
theorem c3_severity_classification :
    (∀ (maxIds : List Nat) (addr : Nat),
      get_severity_level maxIds addr = .error .noMatchingLogLevel ↔
        ∀ m ∈ maxIds, ¬ addr < m) ∧
    (∀ (maxIds : List Nat) (addr i : Nat) (hi : i < maxIds.length),
      addr < maxIds.get ⟨i, hi⟩ →
      (∀ j (hj : j < maxIds.length), j < i → ¬ addr < maxIds.get ⟨j, hj⟩) →
      ∀ lvl, severity_try_from i = .ok lvl →
      get_severity_level maxIds addr = .ok lvl) ∧
    (severity_try_from 0 = .ok .emergency ∧ severity_try_from 1 = .ok .alert ∧
     severity_try_from 2 = .ok .critical ∧ severity_try_from 3 = .ok .error ∧
     severity_try_from 4 = .ok .warning ∧ severity_try_from 5 = .ok .notice ∧
     severity_try_from 6 = .ok .info ∧ severity_try_from 7 = .ok .debug ∧
     severity_try_from 8 = .ok .trace) ∧
    (∀ m0 m1 m2 m3 m4 m5 m6 m7 m8 : Nat,
      m0 < m1 → m1 < m2 → m2 < m3 → m3 < m4 → m4 < m5 → m5 < m6 → m6 < m7 → m7 < m8 →
      get_severity_level [m0, m1, m2, m3, m4, m5, m6, m7, m8] m4 = .ok .notice) := by
  refine ⟨get_severity_level_none_iff, ?_, by decide, ?_⟩
  · intro maxIds addr i hi hlt hmin lvl hok
    exact get_severity_level_smallest maxIds addr i hi hlt hmin lvl hok
  · intro m0 m1 m2 m3 m4 m5 m6 m7 m8 h01 h12 h23 h34 h45 h56 h67 h78
    refine get_severity_level_smallest _ m4 5 (by simp) ?_ ?_ .notice rfl
    · show m4 < m5
      exact h45
    · intro j hj hj5
      have hj' : j = 0 ∨ j = 1 ∨ j = 2 ∨ j = 3 ∨ j = 4 := by omega
      rcases hj' with rfl | rfl | rfl | rfl | rfl
      · show ¬ m4 < m0
        omega
      · show ¬ m4 < m1
        omega
      · show ¬ m4 < m2
        omega
      · show ¬ m4 < m3
        omega
      · show ¬ m4 < m4
        omega

/-- C3 witness: with the strictly ascending markers 1..9, a member at
address 5 — the exclusive end of the warning partition — classifies as
notice. -/
theorem c3_severity_classification_witness :
    get_severity_level [1, 2, 3, 4, 5, 6, 7, 8, 9] 5 = .ok .notice :=
  c3_severity_classification.2.2.2 1 2 3 4 5 6 7 8 9
    (by decide) (by decide) (by decide) (by decide)
    (by decide) (by decide) (by decide) (by decide)

/-! ## C2 — variable-width integer decoding -/

theorem beBytesToNat_foldl (ys : List Nat) (a : Nat) :
    ys.foldl (fun acc b => acc * 256 + b) a = a * 256 ^ ys.length + beBytesToNat ys := by
  induction ys generalizing a with
  | nil => simp [beBytesToNat]
  | cons y ys ih =>
    simp only [List.foldl_cons, beBytesToNat, List.length_cons]
    rw [ih (a * 256 + y), ih (0 * 256 + y)]
    ring

theorem beBytesToNat_cons (y : Nat) (ys : List Nat) :
    beBytesToNat (y :: ys) = y * 256 ^ ys.length + beBytesToNat ys := by
  have h := beBytesToNat_foldl ys y
  simpa [beBytesToNat] using h

theorem beBytesToNat_append (xs ys : List Nat) :
    beBytesToNat (xs ++ ys) = beBytesToNat xs * 256 ^ ys.length + beBytesToNat ys := by
  unfold beBytesToNat
  rw [List.foldl_append]
  exact beBytesToNat_foldl ys _

theorem beBytesToNat_replicate_zero (k : Nat) :
    beBytesToNat (List.replicate k 0) = 0 := by
  induction k with
  | zero => rfl
  | succ k ih => rw [List.replicate_succ, beBytesToNat_cons, ih]; ring

theorem beBytesToNat_replicate_ff (k : Nat) :
    beBytesToNat (List.replicate k 255) = 2 ^ (8 * k) - 1 := by
  induction k with
  | zero => rfl
  | succ k ih =>
    rw [List.replicate_succ, beBytesToNat_cons, List.length_replicate, ih]
    have h1 : (256 : Nat) ^ k = 2 ^ (8 * k) := by
      rw [show (256 : Nat) = 2 ^ 8 by norm_num, ← pow_mul]
    have h2 : (1 : Nat) ≤ 2 ^ (8 * k) := Nat.one_le_pow _ _ (by norm_num)
    have h3 : 2 ^ (8 * (k + 1)) = 2 ^ (8 * k) * 256 := by
      rw [show 8 * (k + 1) = 8 * k + 8 by ring, pow_add]
      norm_num
    rw [h1, h3]
    omega

theorem beBytesToNat_lt (bs : List Nat) (h : ∀ b ∈ bs, b < 256) :
    beBytesToNat bs < 256 ^ bs.length := by
  induction bs with
  | nil => simp [beBytesToNat]
  | cons b bs ih =>
    rw [beBytesToNat_cons]
    have hb := h b (List.mem_cons_self b bs)
    have hrest := ih (fun x hx => h x (List.mem_cons_of_mem b hx))
    have hlen : (256 : Nat) ^ (b :: bs).length = 256 * 256 ^ bs.length := by
      rw [List.length_cons, pow_succ]; ring
    rw [hlen]
    calc b * 256 ^ bs.length + beBytesToNat bs
        < b * 256 ^ bs.length + 256 ^ bs.length := by omega
      _ = (b + 1) * 256 ^ bs.length := by ring
      _ ≤ 256 * 256 ^ bs.length := Nat.mul_le_mul_right _ (by omega)

theorem readBytes_error (n : Nat) (input : List Nat) (e : ULogArgumentReadError)
    (h : readBytes n input = .error e) : e = .io := by
  unfold readBytes at h
  by_cases hc : n ≤ input.length
  · rw [if_pos hc] at h
    exact Except.noConfusion h
  · rw [if_neg hc] at h
    injection h with h
    exact h.symm

/-- Whenever `size < width` (and the slice indexing does not panic first),
the unsigned variable-width read fails `Io` on every input: either the
`2*size - width`-byte `read_exact` already fails, or the final full-width
`read_uN` from the `size`-byte buffer does. -/
theorem read_uint_be_io (w s : Nat) (input : List Nat) (h1 : s < w) (h2 : w ≤ 2 * s) :
    read_uint_be w s input = .error .io := by
  unfold read_uint_be
  rw [if_neg (by omega), if_neg (by omega)]
  split
  · rename_i e heq
    rw [readBytes_error _ _ _ heq]
  · rename_i taken rest heq
    simp only [if_pos h1]

/-- The signed analogue of `read_uint_be_io` (the strict `w < 2*s` keeps
the `buf[empty_bytes]` sign test in bounds, as it is for every size the
type-id mapping constructs). -/
theorem read_int_be_io (w s : Nat) (input : List Nat) (h1 : s < w) (h2 : w < 2 * s) :
    read_int_be w s input = .error .io := by
  unfold read_int_be
  rw [if_neg (by omega), if_neg (by omega)]
  split
  · rename_i e heq
    rw [readBytes_error _ _ _ heq]
  · rename_i taken rest heq
    rw [if_neg (show ¬ s ≤ w - s by omega)]
    simp only [if_pos h1]

/-- At the full width (`size = width`) the unsigned read consumes exactly
`width` wire bytes and decodes them big-endian. -/
theorem read_uint_be_eq (w : Nat) (input : List Nat) (h3 : w ≤ input.length) :
    read_uint_be w w input = .ok (beBytesToNat (input.take w), input.drop w) := by
  have hok : readBytes (w - (w - w)) input = .ok (input.take w, input.drop w) := by
    have hsub : w - (w - w) = w := by omega
    rw [hsub]
    unfold readBytes
    rw [if_pos h3]
  unfold read_uint_be
  rw [if_neg (by omega), if_neg (by omega), hok]
  have htk : (List.replicate (w - w) 0 ++ input.take w).take w = input.take w := by
    rw [Nat.sub_self, List.replicate_zero, List.nil_append]
    exact List.take_of_length_le (by rw [List.length_take]; omega)
  simp only [if_neg (show ¬ w < w by omega), htk]

/-- At the full width the signed read consumes exactly `width` wire bytes
and decodes them as a two's-complement big-endian integer: the unsigned
value of the bytes, minus `2 ^ (8·width)` exactly when the first byte's top
bit is set. -/
theorem read_int_be_eq (w : Nat) (input : List Nat) (h1 : 1 ≤ w)
    (h3 : w ≤ input.length) (h4 : ∀ b ∈ input.take w, b < 256) :
    read_int_be w w input =
      .ok (((beBytesToNat (input.take w) : Nat) : Int) -
        (if 128 ≤ input.headD 0 then (2 : Int) ^ (8 * w) else 0), input.drop w) := by
  obtain ⟨s', rfl⟩ : ∃ s', w = s' + 1 := ⟨w - 1, by omega⟩
  obtain ⟨i0, rest0, rfl⟩ : ∃ i0 rest0, input = i0 :: rest0 := by
    cases input with
    | nil => simp at h3
    | cons a l => exact ⟨a, l, rfl⟩
  have htake : (i0 :: rest0).take (s' + 1) = i0 :: rest0.take s' := rfl
  have hlenr : (rest0.take s').length = s' := by
    rw [List.length_take]
    simp only [List.length_cons] at h3
    omega
  have hi0 : i0 < 256 := h4 i0 (by rw [htake]; exact List.mem_cons_self _ _)
  have hrb : ∀ b ∈ rest0.take s', b < 256 := fun b hb =>
    h4 b (by rw [htake]; exact List.mem_cons_of_mem _ hb)
  have hrlt : beBytesToNat (rest0.take s') < 256 ^ s' := by
    have h := beBytesToNat_lt (rest0.take s') hrb
    rwa [hlenr] at h
  have htcons : beBytesToNat (i0 :: rest0.take s') =
      i0 * 256 ^ s' + beBytesToNat (rest0.take s') := by
    rw [beBytesToNat_cons, hlenr]
  have hGD : (128 : Nat) * 256 ^ s' = 2 ^ (8 * (s' + 1) - 1) := by
    rw [show (256 : Nat) = 2 ^ 8 by norm_num, ← pow_mul,
      show (128 : Nat) = 2 ^ 7 by norm_num, ← pow_add]
    congr 1
    omega
  have hok : readBytes ((s' + 1) - ((s' + 1) - (s' + 1))) (i0 :: rest0) =
      .ok (i0 :: rest0.take s', rest0.drop s') := by
    have hsub : (s' + 1) - ((s' + 1) - (s' + 1)) = s' + 1 := by omega
    rw [hsub]
    unfold readBytes
    rw [if_pos h3]
    rfl
  have htk2 : (i0 :: rest0.take s').take (s' + 1) = i0 :: rest0.take s' :=
    List.take_of_length_le (by simp [hlenr])
  unfold read_int_be
  rw [if_neg (by omega), if_neg (by omega), hok]
  simp only [if_neg (show ¬ s' + 1 ≤ (s' + 1) - (s' + 1) by omega),
    if_neg (show ¬ s' + 1 < s' + 1 by omega), Nat.sub_self, List.replicate_zero,
    List.nil_append, List.headD_cons, htake, htk2, List.drop_succ_cons]
  unfold toSigned
  by_cases hcase : 128 ≤ i0
  · rw [if_pos hcase]
    have htge : 2 ^ (8 * (s' + 1) - 1) ≤ beBytesToNat (i0 :: rest0.take s') := by
      rw [← hGD, htcons]
      have hm := Nat.mul_le_mul_right (256 ^ s') hcase
      omega
    rw [if_neg (show ¬ beBytesToNat (i0 :: rest0.take s') < 2 ^ (8 * (s' + 1) - 1) by
      omega)]
    rw [if_neg (show ¬ s' + 1 ≤ 0 by omega)]
  · rw [if_neg hcase]
    have htlt : beBytesToNat (i0 :: rest0.take s') < 2 ^ (8 * (s' + 1) - 1) := by
      rw [← hGD, htcons]
      have hm := Nat.mul_le_mul_right (256 ^ s') (show i0 ≤ 127 by omega)
      omega
    rw [if_pos htlt]
    simp

/-- C2 (refuted — code bug): the claimed sign/zero-extension policy and
round trips describe the evident intent, but the source allocates the
staging buffer as `vec![0u8; size]` instead of the full integer width, so
the read consumes only `2·size − width` wire bytes and the final full-width
`read_iN`/`read_uN` over the `size`-byte buffer always fails with `Io`
whenever `size < width`.  `Int32{size=3}`, `UInt32{size=3}` and
`Int64`/`UInt64` of sizes 5–7 therefore decode no input at all — in
particular `80 00 00` as `Int32{size=3}` yields `Io`, not −8388608, and
`7F FF FF` yields `Io`, not 8388607 — while the full-width sizes 4 and 8
decode normally. -/
theorem c2_varwidth_decode_never :
    (∀ (input : List Nat) (map : ULogStringMap),
      ULogArgument.read (.int32 3 none) map input = .error .io) ∧
    (∀ (input : List Nat) (map : ULogStringMap),
      ULogArgument.read (.uint32 3 none) map input = .error .io) ∧
    (∀ (input : List Nat) (map : ULogStringMap),
      ULogArgument.read (.int64 5 none) map input = .error .io ∧
      ULogArgument.read (.int64 6 none) map input = .error .io ∧
      ULogArgument.read (.int64 7 none) map input = .error .io ∧
      ULogArgument.read (.uint64 5 none) map input = .error .io ∧
      ULogArgument.read (.uint64 6 none) map input = .error .io ∧
      ULogArgument.read (.uint64 7 none) map input = .error .io) ∧
    ULogArgument.read (.int32 3 none) [] [0x80, 0x00, 0x00] = .error .io ∧
    ULogArgument.read (.int32 3 none) [] [0x7F, 0xFF, 0xFF] = .error .io ∧
    (∀ (input : List Nat) (map : ULogStringMap), 4 ≤ input.length →
      (∀ b ∈ input.take 4, b < 256) →
      ULogArgument.read (.int32 4 none) map input =
        .ok (.int32 4 (some (((beBytesToNat (input.take 4) : Nat) : Int) -
          (if 128 ≤ input.headD 0 then (2 : Int) ^ (8 * 4) else 0))), input.drop 4)) ∧
    (∀ (input : List Nat) (map : ULogStringMap), 8 ≤ input.length →
      ULogArgument.read (.uint64 8 none) map input =
        .ok (.uint64 8 (some (beBytesToNat (input.take 8))), input.drop 8)) := by
  refine ⟨?_, ?_, ?_, by decide, by decide, ?_, ?_⟩
  · intro input map
    simp [ULogArgument.read, read_int_be_io 4 3 input (by norm_num) (by norm_num),
      Except.map]
  · intro input map
    simp [ULogArgument.read, read_uint_be_io 4 3 input (by norm_num) (by norm_num),
      Except.map]
  · intro input map
    refine ⟨?_, ?_, ?_, ?_, ?_, ?_⟩
    · simp [ULogArgument.read, read_int_be_io 8 5 input (by norm_num) (by norm_num),
        Except.map]
    · simp [ULogArgument.read, read_int_be_io 8 6 input (by norm_num) (by norm_num),
        Except.map]
    · simp [ULogArgument.read, read_int_be_io 8 7 input (by norm_num) (by norm_num),
        Except.map]
    · simp [ULogArgument.read, read_uint_be_io 8 5 input (by norm_num) (by norm_num),
        Except.map]
    · simp [ULogArgument.read, read_uint_be_io 8 6 input (by norm_num) (by norm_num),
        Except.map]
    · simp [ULogArgument.read, read_uint_be_io 8 7 input (by norm_num) (by norm_num),
        Except.map]
  · intro input map h4 hb
    simp only [ULogArgument.read, read_int_be_eq 4 input (by norm_num) h4 hb, Except.map]
  · intro input map h8
    simp only [ULogArgument.read, read_uint_be_eq 8 input h8, Except.map]

/-- C2 witness: the full-width success clauses of the theorem applied at
concrete inputs, hypotheses discharged by computation. -/
theorem c2_varwidth_decode_never_witness :
    ULogArgument.read (.int32 4 none) [] [128, 0, 0, 0] =
      .ok (.int32 4 (some (((beBytesToNat ([128, 0, 0, 0].take 4) : Nat) : Int) -
        (if 128 ≤ [128, 0, 0, 0].headD 0 then (2 : Int) ^ (8 * 4) else 0))),
        [128, 0, 0, 0].drop 4) ∧
    ULogArgument.read (.uint64 8 none) [] [1, 2, 3, 4, 5, 6, 7, 8] =
      .ok (.uint64 8 (some (beBytesToNat ([1, 2, 3, 4, 5, 6, 7, 8].take 8))),
        [1, 2, 3, 4, 5, 6, 7, 8].drop 8) :=
  ⟨c2_varwidth_decode_never.2.2.2.2.2.1 [128, 0, 0, 0] [] (by decide) (by decide),
   c2_varwidth_decode_never.2.2.2.2.2.2 [1, 2, 3, 4, 5, 6, 7, 8] [] (by decide)⟩

/-! ## C5 — String decoding and short reads -/

theorem readBytes_short (n : Nat) (input : List Nat) (h : input.length < n) :
    readBytes n input = .error .io := by
  unfold readBytes
  rw [if_neg (by omega)]

theorem findIdx_beq_zero_append (pre post : List Nat) (h : (0 : Nat) ∉ pre) :
    (pre ++ 0 :: post).findIdx (· == 0) = pre.length := by
  induction pre with
  | nil => simp [List.findIdx_cons]
  | cons a l ih =>
    have ha : a ≠ 0 := fun he => h (he ▸ List.mem_cons_self a l)
    have hl : (0 : Nat) ∉ l := fun hm => h (List.mem_cons_of_mem a hm)
    have ha2 : (a == 0) = false := by simp [ha]
    simp [List.findIdx_cons, ha2, ih hl]

theorem findIdx_beq_zero_none (l : List Nat) (h : (0 : Nat) ∉ l) :
    l.findIdx (· == 0) = l.length := by
  induction l with
  | nil => rfl
  | cons a t ih =>
    have ha : a ≠ 0 := fun he => h (he ▸ List.mem_cons_self a t)
    have ht : (0 : Nat) ∉ t := fun hm => h (List.mem_cons_of_mem a hm)
    have ha2 : (a == 0) = false := by simp [ha]
    simp [List.findIdx_cons, ha2, ih ht]

theorem string_read_with_nul (pre post : List Nat) (map : ULogStringMap)
    (h : (0 : Nat) ∉ pre) :
    ULogArgument.read (.string none) map (pre ++ 0 :: post) =
      .ok (.string (some (utf8Lossy pre)), post) := by
  simp only [ULogArgument.read]
  rw [findIdx_beq_zero_append pre post h]
  have htk : (pre ++ 0 :: post).take (pre.length + 1) = pre ++ [0] := by
    rw [show pre.length + 1 = pre.length + 1 by rfl]
    rw [List.take_append]
    simp
  have hdp : (pre ++ 0 :: post).drop (pre.length + 1) = post := by
    rw [List.drop_append]
    simp
  rw [htk, hdp]
  have hne : (pre ++ [0]).isEmpty = false := by simp
  rw [hne]
  simp only [Bool.false_eq_true, if_false]
  have hlen : (pre ++ [0]).length = pre.length + 1 := by simp
  rw [hlen]
  have : (pre ++ [0]).take (pre.length + 1 - 1) = pre := by
    simp [List.take_left' rfl]
  rw [this]

theorem string_read_no_nul (l : List Nat) (map : ULogStringMap)
    (h : (0 : Nat) ∉ l) (hne : l ≠ []) :
    ULogArgument.read (.string none) map l =
      .ok (.string (some (utf8Lossy (l.take (l.length - 1)))), []) := by
  simp only [ULogArgument.read]
  rw [findIdx_beq_zero_none l h]
  have htk : l.take (l.length + 1) = l := List.take_of_length_le (by omega)
  have hdp : l.drop (l.length + 1) = [] := List.drop_of_length_le (by omega)
  rw [htk, hdp]
  have hemp : l.isEmpty = false := by
    cases l with
    | nil => exact absurd rfl hne
    | cons a t => rfl
  rw [hemp]
  simp only [Bool.false_eq_true, if_false]

/-- C5 counterexample: the claim as stated is false at a concrete input — a
String argument read from the one-byte reader `[0x61]` is a short read (the
input ends before the NUL that completes the wire encoding), yet the decode
does not return the Io error; it succeeds, silently dropping the final byte
and storing the empty string. -/
theorem c5_short_read_counterexample :
    ULogArgument.read (.string none) [] [0x61] ≠ .error .io ∧
    ULogArgument.read (.string none) [] [0x61] = .ok (.string (some []), []) :=
  ⟨by decide, by decide⟩

/-- C5 (amended): decoding a String argument whose input contains a NUL
consumes bytes up to and including the first NUL and stores the bytes
before it decoded as lossy UTF-8, the NUL dropped.  A short read, however,
does not uniformly produce the Io error: for the String variant a reader
already at end of input makes the source's `&string[0 .. len - 1]` slice
panic on index underflow, and a non-empty reader without a NUL succeeds
while silently dropping the final byte; every variant other than String
does return the Io error whenever the reader ends before the variant's
complete wire encoding has been consumed (the variable-width integer
variants are quantified at the sizes the type-id mapping constructs —
3–4 for the 32-bit variants, 5–8 for the 64-bit ones; for the partial
widths among them the decode errors `Io` on every reader, short or not,
see the C2 development). -/
theorem c5_string_and_short_reads :
    (∀ (pre post : List Nat) (map : ULogStringMap), (0 : Nat) ∉ pre →
      ULogArgument.read (.string none) map (pre ++ 0 :: post) =
        .ok (.string (some (utf8Lossy pre)), post)) ∧
    (∀ map : ULogStringMap,
      ULogArgument.read (.string none) map [] = .error .panicked) ∧
    (∀ (l : List Nat) (map : ULogStringMap), (0 : Nat) ∉ l → l ≠ [] →
      ULogArgument.read (.string none) map l =
        .ok (.string (some (utf8Lossy (l.take (l.length - 1)))), [])) ∧
    (∀ (input : List Nat) (map : ULogStringMap),
      (input.length < 4 → ULogArgument.read (.slice none) map input = .error .io) ∧
      (4 ≤ input.length → input.length < 4 + beBytesToNat (input.take 4) →
        ULogArgument.read (.slice none) map input = .error .io) ∧
      (input.length < 4 → ULogArgument.read (.float none) map input = .error .io) ∧
      (input.length < 8 → ULogArgument.read (.double none) map input = .error .io) ∧
      (input.length < 1 → ULogArgument.read (.bool none) map input = .error .io) ∧
      (input.length < 2 → ULogArgument.read (.ulogString none) map input = .error .io) ∧
      (input.length < 1 → ULogArgument.read (.int8 none) map input = .error .io) ∧
      (input.length < 2 → ULogArgument.read (.int16 none) map input = .error .io) ∧
      (input.length < 1 → ULogArgument.read (.uint8 none) map input = .error .io) ∧
      (input.length < 2 → ULogArgument.read (.uint16 none) map input = .error .io) ∧
      (∀ size, size = 3 ∨ size = 4 → input.length < size →
        ULogArgument.read (.int32 size none) map input = .error .io) ∧
      (∀ size, size = 5 ∨ size = 6 ∨ size = 7 ∨ size = 8 → input.length < size →
        ULogArgument.read (.int64 size none) map input = .error .io) ∧
      (∀ size, size = 3 ∨ size = 4 → input.length < size →
        ULogArgument.read (.uint32 size none) map input = .error .io) ∧
      (∀ size, size = 5 ∨ size = 6 ∨ size = 7 ∨ size = 8 → input.length < size →
        ULogArgument.read (.uint64 size none) map input = .error .io)) := by
  refine ⟨string_read_with_nul, fun map => rfl, string_read_no_nul, ?_⟩
  intro input map
  refine ⟨?_, ?_, ?_, ?_, ?_, ?_, ?_, ?_, ?_, ?_, ?_, ?_, ?_, ?_⟩
  · intro h
    simp [ULogArgument.read, Except.map, readBytes_short _ _ h]
  · intro h4 hlen
    simp only [ULogArgument.read]
    have hok : readBytes 4 input = .ok (input.take 4, input.drop 4) := by
      unfold readBytes
      rw [if_pos h4]
    have hshort : readBytes (beBytesToNat (input.take 4)) (input.drop 4) = .error .io := by
      apply readBytes_short
      rw [List.length_drop]
      omega
    simp [hok, hshort]
  · intro h
    simp [ULogArgument.read, Except.map, readBytes_short _ _ h]
  · intro h
    simp [ULogArgument.read, Except.map, readBytes_short _ _ h]
  · intro h
    simp [ULogArgument.read, Except.map, readBytes_short _ _ h]
  · intro h
    simp [ULogArgument.read, Except.map, readBytes_short _ _ h]
  · intro h
    simp [ULogArgument.read, Except.map, readBytes_short _ _ h]
  · intro h
    simp [ULogArgument.read, Except.map, readBytes_short _ _ h]
  · intro h
    simp [ULogArgument.read, Except.map, readBytes_short _ _ h]
  · intro h
    simp [ULogArgument.read, Except.map, readBytes_short _ _ h]
  · intro size hs h
    rcases hs with rfl | rfl
    · simp [ULogArgument.read, read_int_be_io 4 3 input (by norm_num) (by norm_num),
        Except.map]
    · simp [ULogArgument.read, read_int_be, Except.map, readBytes_short 4 input h]
  · intro size hs h
    rcases hs with rfl | rfl | rfl | rfl
    · simp [ULogArgument.read, read_int_be_io 8 5 input (by norm_num) (by norm_num),
        Except.map]
    · simp [ULogArgument.read, read_int_be_io 8 6 input (by norm_num) (by norm_num),
        Except.map]
    · simp [ULogArgument.read, read_int_be_io 8 7 input (by norm_num) (by norm_num),
        Except.map]
    · simp [ULogArgument.read, read_int_be, Except.map, readBytes_short 8 input h]
  · intro size hs h
    rcases hs with rfl | rfl
    · simp [ULogArgument.read, read_uint_be_io 4 3 input (by norm_num) (by norm_num),
        Except.map]
    · simp [ULogArgument.read, read_uint_be, Except.map, readBytes_short 4 input h]
  · intro size hs h
    rcases hs with rfl | rfl | rfl | rfl
    · simp [ULogArgument.read, read_uint_be_io 8 5 input (by norm_num) (by norm_num),
        Except.map]
    · simp [ULogArgument.read, read_uint_be_io 8 6 input (by norm_num) (by norm_num),
        Except.map]
    · simp [ULogArgument.read, read_uint_be_io 8 7 input (by norm_num) (by norm_num),
        Except.map]
    · simp [ULogArgument.read, read_uint_be, Except.map, readBytes_short 8 input h]

/-- C5 witness: the amended theorem applied at concrete inputs — the reader
`68 69 00 07` for the NUL clause (value "hi", one byte left over), and a
one-byte reader for a short Float read. -/
theorem c5_string_and_short_reads_witness :
    ULogArgument.read (.string none) [] ([104, 105] ++ 0 :: [7]) =
      .ok (.string (some (utf8Lossy [104, 105])), [7]) ∧
    ULogArgument.read (.float none) [] [1] = .error .io :=
  ⟨c5_string_and_short_reads.1 [104, 105] [7] [] (by decide),
   (c5_string_and_short_reads.2.2.2 [1] []).2.2.1 (by decide)⟩

/-! ## C7 — quoted fields in the segment splitter -/

/-- Specification-side count of the consecutive backslashes immediately
before position `p` (position 0 never counted, matching the `i > 1` bound
of the scan in the source). -/
def backslashRun (s : Str) : Nat → Nat
  | p + 2 => if s.getD (p + 1) ' ' = '\\' then backslashRun s (p + 1) + 1 else 0
  | _ => 0

/-- The escape flag computed by the source equals oddness of the number of
consecutive backslashes before the position: a quote is escaped exactly
when an odd number of backslashes precedes it. -/
theorem quote_escaped_eq_parity (s : Str) :
    ∀ p, quote_escaped_at s p = decide (backslashRun s p % 2 = 1)
  | 0 => rfl
  | 1 => rfl
  | p + 2 => by
    rw [quote_escaped_at, backslashRun]
    by_cases hb : s.getD (p + 1) ' ' = '\\'
    · rw [if_pos hb, if_pos hb, quote_escaped_eq_parity s (p + 1)]
      by_cases hr : backslashRun s (p + 1) % 2 = 1
      · simp [hr]
        omega
      · simp [hr]
        omega
    · rw [if_neg hb, if_neg hb]
      rfl

theorem find_next_quote_aux_some (s : Str) : ∀ (suffix : List Char) (pos p : Nat),
    suffix = s.drop pos → find_next_quote_aux s suffix pos = some p →
    pos ≤ p ∧ p < s.length ∧ s.getD p ' ' = '"' ∧ quote_escaped_at s p = false ∧
      ∀ q, pos ≤ q → q < p → ¬(s.getD q ' ' = '"' ∧ quote_escaped_at s q = false) := by
  intro suffix
  induction suffix with
  | nil => intro pos p _ hfind; exact absurd hfind (by simp [find_next_quote_aux])
  | cons c rest ih =>
    intro pos p hdrop hfind
    have hposlt : pos < s.length := by
      by_contra hge
      have : s.drop pos = [] := List.drop_eq_nil_of_le (by omega)
      rw [this] at hdrop
      exact List.noConfusion hdrop
    have hc : s.getD pos ' ' = c := by
      have h1 : (s.drop pos).head? = s[pos]? := List.head?_drop s pos
      rw [← hdrop] at h1
      simp only [List.head?_cons] at h1
      rw [List.getD_eq_getElem?_getD, ← h1]
      rfl
    have hrest : rest = s.drop (pos + 1) := by
      have h1 : (s.drop pos).tail = s.drop (pos + 1) := List.tail_drop s pos
      rw [← hdrop] at h1
      simpa using h1
    rw [find_next_quote_aux] at hfind
    by_cases hcond : c = '"' ∧ quote_escaped_at s pos = false
    · rw [if_pos hcond] at hfind
      injection hfind with hp
      subst hp
      exact ⟨Nat.le_refl _, hposlt, hc ▸ hcond.1, hcond.2, fun q h1 h2 => absurd h1 (by omega)⟩
    · rw [if_neg hcond] at hfind
      obtain ⟨h1, h2, h3, h4, h5⟩ := ih (pos + 1) p hrest hfind
      refine ⟨by omega, h2, h3, h4, ?_⟩
      intro q hq1 hq2
      rcases Nat.eq_or_lt_of_le hq1 with heq | hlt
      · intro hcontra
        rw [← heq] at hcontra
        exact hcond ⟨by rw [← hc]; exact hcontra.1, hcontra.2⟩
      · exact h5 q (by omega) hq2

theorem find_next_quote_aux_none (s : Str) : ∀ (suffix : List Char) (pos : Nat),
    suffix = s.drop pos → find_next_quote_aux s suffix pos = none →
    ∀ q, pos ≤ q → q < s.length →
      ¬(s.getD q ' ' = '"' ∧ quote_escaped_at s q = false) := by
  intro suffix
  induction suffix with
  | nil =>
    intro pos hdrop _ q hq1 hq2
    have : s.drop pos ≠ [] := by
      intro h
      rw [List.drop_eq_nil_iff] at h
      omega
    exact absurd hdrop.symm this
  | cons c rest ih =>
    intro pos hdrop hfind q hq1 hq2
    have hc : s.getD pos ' ' = c := by
      have h1 : (s.drop pos).head? = s[pos]? := List.head?_drop s pos
      rw [← hdrop] at h1
      simp only [List.head?_cons] at h1
      rw [List.getD_eq_getElem?_getD, ← h1]
      rfl
    have hrest : rest = s.drop (pos + 1) := by
      have h1 : (s.drop pos).tail = s.drop (pos + 1) := List.tail_drop s pos
      rw [← hdrop] at h1
      simpa using h1
    rw [find_next_quote_aux] at hfind
    by_cases hcond : c = '"' ∧ quote_escaped_at s pos = false
    · rw [if_pos hcond] at hfind
      exact Option.noConfusion hfind
    · rw [if_neg hcond] at hfind
      rcases Nat.eq_or_lt_of_le hq1 with heq | hlt
      · intro hcontra
        rw [← heq] at hcontra
        exact hcond ⟨by rw [← hc]; exact hcontra.1, hcontra.2⟩
      · exact ih (pos + 1) hrest hfind q (by omega) hq2

theorem quote_escaped_false_iff (s : Str) (p : Nat) :
    quote_escaped_at s p = false ↔ backslashRun s p % 2 = 0 := by
  rw [quote_escaped_eq_parity]
  rcases Nat.mod_two_eq_zero_or_one (backslashRun s p) with h | h <;> simp [h]

theorem split_segment_once_unquoted_ok (s : Str) (d : Char)
    (hd : d.toNat ≤ 127) (hq : s.headD ' ' ≠ '"') :
    ∃ out, split_segment_once s d = .ok out := by
  unfold split_segment_once
  rw [if_neg (by omega)]
  by_cases hemp : s.isEmpty
  · rw [if_pos hemp]
    exact ⟨_, rfl⟩
  · rw [if_neg hemp, if_pos hq]
    exact ⟨_, rfl⟩

theorem split_segment_once_quoted_errors (s : Str) (d : Char)
    (hd : d.toNat ≤ 127) (hq : s.headD ' ' = '"') (hne : s ≠ []) :
    (split_segment_once s d = .error .unbalancedQuotes ↔ find_next_quote s 1 = none) ∧
    (∀ p, find_next_quote s 1 = some p →
      (split_segment_once s d = .error .partiallyQuotedField ↔
        ∃ c, (s.drop p)[1]? = some c ∧ c ≠ d)) := by
  have hemp : s.isEmpty = false := by
    cases s with
    | nil => exact absurd rfl hne
    | cons a t => rfl
  cases hfq : find_next_quote s 1 with
  | none =>
    have hred : split_segment_once s d = .error .unbalancedQuotes := by
      unfold split_segment_once
      rw [if_neg (by omega)]
      simp only [hemp, Bool.false_eq_true, if_false]
      rw [if_neg (not_not_intro hq), hfq]
    refine ⟨by rw [hred]; simp, ?_⟩
    intro p hp
    exact Option.noConfusion hp
  | some p0 =>
    have hred : split_segment_once s d =
        (if ((s.drop p0).drop 1).headD d ≠ d then .error .partiallyQuotedField
         else match unescape ((s.take p0).drop 1) with
           | .error _ => .error .unescapeError
           | .ok u => .ok (u, if ((s.drop p0).drop 1).isEmpty = true then none
               else some (((s.drop p0).drop 1).drop 1))) := by
      unfold split_segment_once
      rw [if_neg (by omega)]
      simp only [hemp, Bool.false_eq_true, if_false]
      rw [if_neg (not_not_intro hq), hfq]
    have hhead : ((s.drop p0).drop 1).head? = (s.drop p0)[1]? := List.head?_drop _ 1
    refine ⟨?_, ?_⟩
    · rw [hred]
      constructor
      · intro h
        exfalso
        by_cases hcond : ((s.drop p0).drop 1).headD d ≠ d
        · rw [if_pos hcond] at h
          simp at h
        · rw [if_neg hcond] at h
          cases hu : unescape ((s.take p0).drop 1) with
          | error e => rw [hu] at h; simp at h
          | ok u => rw [hu] at h; simp at h
      · intro h
        exact Option.noConfusion h
    · intro p hp
      injection hp with hp
      subst hp
      rw [hred]
      by_cases hcond : ((s.drop p0).drop 1).headD d ≠ d
      · rw [if_pos hcond]
        constructor
        · intro _
          cases hx : (s.drop p0).drop 1 with
          | nil => rw [hx] at hcond; exact absurd rfl hcond
          | cons c t =>
            refine ⟨c, ?_, ?_⟩
            · rw [← hhead, hx]
              rfl
            · rw [hx] at hcond
              simpa using hcond
        · intro _
          rfl
      · rw [if_neg hcond]
        constructor
        · intro h
          exfalso
          cases hu : unescape ((s.take p0).drop 1) with
          | error e => rw [hu] at h; simp at h
          | ok u => rw [hu] at h; simp at h
        · rintro ⟨c, hc1, hc2⟩
          exfalso
          rw [← hhead] at hc1
          rw [not_not] at hcond
          cases hx : (s.drop p0).drop 1 with
          | nil => rw [hx] at hc1; exact Option.noConfusion hc1
          | cons c0 t =>
            rw [hx] at hc1 hcond
            simp only [List.head?_cons, Option.some.injEq] at hc1
            simp only [List.headD_cons] at hcond
            rw [← hc1] at hc2
            exact hc2 hcond

/-- C7: a field is treated as quoted exactly when its first byte is a
double quote — a field not starting with a quote always splits successfully
(the quote errors cannot arise); for a quoted field the closing quote is
the next double quote preceded by an even number of consecutive
backslashes: the scan returns the first position holding a quote whose
preceding backslash run has even length, and a quote is skipped exactly
when that run is odd; splitting fails `UnbalancedQuotes` exactly when no
such closing quote exists, and `PartiallyQuotedField` exactly when the
closing quote is followed by anything other than end of input or the
delimiter.  In particular `"a` fails UnbalancedQuotes, `"a"b` fails
PartiallyQuotedField, and `"a_b"_c` yields the fields `a_b` and `c`. -/
theorem c7_quoted_fields :
    (∀ (s : Str) (d : Char), d.toNat ≤ 127 → s.headD ' ' ≠ '"' →
      ∃ out, split_segment_once s d = .ok out) ∧
    (∀ (s : Str) (p : Nat), quote_escaped_at s p = decide (backslashRun s p % 2 = 1)) ∧
    (∀ (s : Str) (p : Nat), find_next_quote s 1 = some p →
      1 ≤ p ∧ p < s.length ∧ s.getD p ' ' = '"' ∧ backslashRun s p % 2 = 0 ∧
        ∀ q, 1 ≤ q → q < p → ¬(s.getD q ' ' = '"' ∧ backslashRun s q % 2 = 0)) ∧
    (∀ s : Str, find_next_quote s 1 = none →
      ∀ q, 1 ≤ q → q < s.length → ¬(s.getD q ' ' = '"' ∧ backslashRun s q % 2 = 0)) ∧
    (∀ (s : Str) (d : Char), d.toNat ≤ 127 → s.headD ' ' = '"' → s ≠ [] →
      (split_segment_once s d = .error .unbalancedQuotes ↔ find_next_quote s 1 = none) ∧
      (∀ p, find_next_quote s 1 = some p →
        (split_segment_once s d = .error .partiallyQuotedField ↔
          ∃ c, (s.drop p)[1]? = some c ∧ c ≠ d))) ∧
    split_segments "\"a".toList '_' = .error .unbalancedQuotes ∧
    split_segments "\"a\"b".toList '_' = .error .partiallyQuotedField ∧
    split_segments "\"a_b\"_c".toList '_' = .ok ["a_b".toList, "c".toList] := by
  refine ⟨split_segment_once_unquoted_ok, quote_escaped_eq_parity, ?_, ?_,
    split_segment_once_quoted_errors, by decide, by decide, by decide⟩
  · intro s p hfind
    obtain ⟨h1, h2, h3, h4, h5⟩ := find_next_quote_aux_some s (s.drop 1) 1 p rfl hfind
    refine ⟨h1, h2, h3, (quote_escaped_false_iff s p).mp h4, ?_⟩
    rintro q hq1 hq2 ⟨hg, hpar⟩
    exact h5 q hq1 hq2 ⟨hg, (quote_escaped_false_iff s q).mpr hpar⟩
  · intro s hfind q hq1 hq2
    rintro ⟨hg, hpar⟩
    exact find_next_quote_aux_none s (s.drop 1) 1 rfl hfind q hq1 hq2
      ⟨hg, (quote_escaped_false_iff s q).mpr hpar⟩

/-- C7 witness: the closing-quote characterization of the theorem applied
to the concrete input `"a"b` — the closing quote at position 2 is followed
by `b`, so the split fails `PartiallyQuotedField`. -/
theorem c7_quoted_fields_witness :
    split_segment_once "\"a\"b".toList '_' = .error .partiallyQuotedField :=
  ((c7_quoted_fields.2.2.2.2.1 "\"a\"b".toList '_' (by decide) (by decide)
      (by decide)).2 2 (by decide)).mpr ⟨'b', by decide, by decide⟩

/-! ## C10 — quote-free inputs split naively -/

/-- Specification-side definition for the refinement claim: the naive split
of a string on a delimiter — no quoting, no escaping, empty input one empty
field, a trailing delimiter a trailing empty field. -/
def naiveSplit (d : Char) : Str → List Str
  | [] => [[]]
  | c :: rest =>
    if c = d then [] :: naiveSplit d rest
    else
      match naiveSplit d rest with
      | [] => [[c]]
      | f :: fs => (c :: f) :: fs

theorem naiveSplit_no_delim (d : Char) (s : Str) (h : d ∉ s) : naiveSplit d s = [s] := by
  induction s with
  | nil => rfl
  | cons c rest ih =>
    have hc : c ≠ d := fun he => h (he ▸ List.mem_cons_self _ _)
    have hr : d ∉ rest := fun hm => h (List.mem_cons_of_mem _ hm)
    simp only [naiveSplit]
    rw [if_neg hc, ih hr]

theorem naiveSplit_first_delim (d : Char) (pre suf : Str) (h : d ∉ pre) :
    naiveSplit d (pre ++ d :: suf) = pre :: naiveSplit d suf := by
  induction pre with
  | nil => simp [naiveSplit]
  | cons c rest ih =>
    have hc : c ≠ d := fun he => h (he ▸ List.mem_cons_self _ _)
    have hr : d ∉ rest := fun hm => h (List.mem_cons_of_mem _ hm)
    simp only [List.cons_append, naiveSplit, List.append_eq]
    rw [if_neg hc, ih hr]

theorem first_occurrence_split {d : Char} {s : Str} (hs : d ∈ s) :
    ∃ pre suf, s = pre ++ d :: suf ∧ d ∉ pre := by
  induction s with
  | nil => cases hs
  | cons c rest ih =>
    by_cases hc : c = d
    · exact ⟨[], rest, by rw [hc, List.nil_append], by simp⟩
    · have hmem : d ∈ rest := by
        rcases List.mem_cons.mp hs with h | h
        · exact absurd h.symm hc
        · exact h
      obtain ⟨pre, suf, heq, hpre⟩ := ih hmem
      refine ⟨c :: pre, suf, by rw [heq]; rfl, ?_⟩
      intro hm
      rcases List.mem_cons.mp hm with h | h
      · exact hc h.symm
      · exact hpre h

theorem findIdx_beq_append {α : Type} [BEq α] [LawfulBEq α] (a : α)
    (pre post : List α) (h : a ∉ pre) :
    (pre ++ a :: post).findIdx (· == a) = pre.length := by
  induction pre with
  | nil => simp [List.findIdx_cons]
  | cons c l ih =>
    have hc : c ≠ a := fun he => h (he ▸ List.mem_cons_self c l)
    have hl : a ∉ l := fun hm => h (List.mem_cons_of_mem c hm)
    have hc2 : (c == a) = false := by simp [hc]
    simp [List.findIdx_cons, hc2, ih hl]

theorem split_segment_once_no_quote_delim (d : Char) (hd : d.toNat ≤ 127)
    (pre suf : Str) (hpre : d ∉ pre) (hq : '"' ∉ pre ++ d :: suf) :
    split_segment_once (pre ++ d :: suf) d = .ok (pre, some suf) := by
  have hemp : (pre ++ d :: suf).isEmpty = false := by cases pre <;> rfl
  have hhead : (pre ++ d :: suf).headD ' ' ≠ '"' := by
    cases pre with
    | nil =>
      simp only [List.nil_append, List.headD_cons]
      intro he
      exact hq (by rw [← he]; simp)
    | cons c l =>
      simp only [List.cons_append, List.headD_cons]
      intro he
      exact hq (by rw [← he]; exact List.mem_cons_self _ _)
  have hfi : (pre ++ d :: suf).findIdx (· == d) = pre.length :=
    findIdx_beq_append d pre suf hpre
  unfold split_segment_once
  rw [if_neg (by omega)]
  simp only [hemp, Bool.false_eq_true, if_false]
  rw [if_pos hhead]
  simp only [hfi, List.take_left' rfl, List.drop_left' rfl, List.isEmpty_cons,
    Bool.false_eq_true, if_false, List.drop_succ_cons, List.drop_zero]

theorem split_segment_once_no_quote_no_delim (d : Char) (hd : d.toNat ≤ 127)
    (s : Str) (hq : '"' ∉ s) (hnd : d ∉ s) :
    split_segment_once s d = .ok (s, none) := by
  cases s with
  | nil =>
    unfold split_segment_once
    rw [if_neg (by omega)]
    rfl
  | cons c rest =>
    have hhead : (c :: rest).headD ' ' ≠ '"' := by
      simp only [List.headD_cons]
      intro he
      exact hq (by rw [← he]; exact List.mem_cons_self _ _)
    have hfi : (c :: rest).findIdx (· == d) = (c :: rest).length :=
      List.findIdx_eq_length_of_false (fun x hx => by
        simp only [beq_eq_false_iff_ne]
        intro he
        exact hnd (he ▸ hx))
    unfold split_segment_once
    rw [if_neg (by omega)]
    have hemp : (c :: rest).isEmpty = false := rfl
    simp only [hemp, Bool.false_eq_true, if_false]
    rw [if_pos hhead]
    simp only [hfi, List.take_length, List.drop_length, List.isEmpty_nil, if_true]

theorem split_segments_go_no_quote (d : Char) (hd : d.toNat ≤ 127) :
    ∀ (fuel : Nat) (s : Str), s.length < fuel → '"' ∉ s →
      split_segments_go d fuel s = .ok (naiveSplit d s) := by
  intro fuel
  induction fuel with
  | zero => intro s h _; omega
  | succ fuel ih =>
    intro s hlen hq
    rw [split_segments_go]
    by_cases hin : d ∈ s
    · obtain ⟨pre, suf, rfl, hpre⟩ := first_occurrence_split hin
      rw [split_segment_once_no_quote_delim d hd pre suf hpre hq]
      have hsuf_q : '"' ∉ suf := fun hm => hq (by simp [hm])
      have hlens : suf.length < fuel := by
        rw [List.length_append, List.length_cons] at hlen
        omega
      show (split_segments_go d fuel suf).map (pre :: ·) =
        Except.ok (naiveSplit d (pre ++ d :: suf))
      rw [ih suf hlens hsuf_q, naiveSplit_first_delim d pre suf hpre]
      rfl
    · rw [split_segment_once_no_quote_no_delim d hd s hq hin,
        naiveSplit_no_delim d s hin]

/-- C10: for every input that contains no double-quote character and every
ASCII delimiter, `split_segments` succeeds — none of `UnbalancedQuotes`,
`PartiallyQuotedField` or `UnescapeError` can arise — and returns exactly
the naive split of the input on the delimiter, every field verbatim and not
unescaped. -/
theorem c10_no_quote_naive_split (s : Str) (d : Char)
    (hd : d.toNat ≤ 127) (hq : '"' ∉ s) :
    split_segments s d = .ok (naiveSplit d s) :=
  split_segments_go_no_quote d hd (s.length + 1) s (by omega) hq

/-- C10 witness: the theorem applied to the concrete quote-free input
`a_b_` with delimiter `_`. -/
theorem c10_no_quote_naive_split_witness :
    split_segments "a_b_".toList '_' = .ok (naiveSplit '_' "a_b_".toList) :=
  c10_no_quote_naive_split "a_b_".toList '_' (by decide) (by decide)

/-! ## C9 — the message loop only terminates at end of input -/

/-- C9: the per-frame loop never terminates because of a frame-level
failure nor a `TimedOut` read error. A timed-out read is silently retried;
any other read error is reported and the loop continues; a chunk whose
processing fails (framing decode, system-id read, message-id read, unknown
system, unknown message, argument decode or format error) has the failure
reported and the loop continues; a chunk that processes prints its line and
the loop continues; a read of an empty buffer terminates at once, and the
loop reaches its normal exit exactly when some read yields an empty
buffer. -/
theorem c9_loop_termination (rz : List Nat → Option (List Nat))
    (systems : List (Nat × ULogSystemInfo)) :
    (∀ rest, main_loop rz systems (.timedOut :: rest) = main_loop rz systems rest) ∧
    (∀ rest, main_loop rz systems (.ioError :: rest) =
      ((.report .entryRead) :: (main_loop rz systems rest).1,
        (main_loop rz systems rest).2)) ∧
    (∀ b bs rest e, process_chunk rz systems (b :: bs) = .error e →
      main_loop rz systems (.chunk (b :: bs) :: rest) =
        ((.report e) :: (main_loop rz systems rest).1, (main_loop rz systems rest).2)) ∧
    (∀ b bs rest s, process_chunk rz systems (b :: bs) = .ok s →
      main_loop rz systems (.chunk (b :: bs) :: rest) =
        ((.line s) :: (main_loop rz systems rest).1, (main_loop rz systems rest).2)) ∧
    (∀ rest, main_loop rz systems (.chunk [] :: rest) = ([], true)) ∧
    (∀ evs, (main_loop rz systems evs).2 = true ↔ ReadEvent.chunk [] ∈ evs) := by
  refine ⟨fun rest => rfl, fun rest => rfl, ?_, ?_, fun rest => rfl, ?_⟩
  · intro b bs rest e he
    show ((match process_chunk rz systems (b :: bs) with
      | .ok s => LoopOut.line s
      | .error e => LoopOut.report e) :: (main_loop rz systems rest).1,
      (main_loop rz systems rest).2) = _
    rw [he]
  · intro b bs rest s hs
    show ((match process_chunk rz systems (b :: bs) with
      | .ok s => LoopOut.line s
      | .error e => LoopOut.report e) :: (main_loop rz systems rest).1,
      (main_loop rz systems rest).2) = _
    rw [hs]
  · intro evs
    induction evs with
    | nil => simp [main_loop]
    | cons ev rest ih =>
      cases ev with
      | timedOut => simpa [main_loop] using ih
      | ioError => simpa [main_loop] using ih
      | chunk bytes =>
        cases bytes with
        | nil => simp [main_loop]
        | cons b bs =>
          simp only [main_loop, List.mem_cons]
          rw [ih]
          simp

/-- C9 witness: on a stream of one malformed frame followed by an empty
read, the loop reports the failure, continues, and terminates at the empty
read. -/
theorem c9_loop_termination_witness :
    main_loop (fun l => some l) [] [.chunk [1, 0], .chunk []] =
      ([.report .systemIdRead], true) := by
  have h := (c9_loop_termination (fun l => some l) []).2.2.1 1 [0] [.chunk []]
    .systemIdRead (by decide)
  rw [h]
  rfl

/-! ## C8 — the single-message end-to-end line -/

/-- C8 counterexample: for the claim's concrete dictionary — one
info-severity message `main.c_42_hello`, no argument members, system id
`0x0001` — and the frame payload `00 01 00 06`, the printed line does NOT
begin with `[Info] hello`: `main.rs` prints the severity with the alternate
`Display` (`\x7b:#\x7d`), which renders the info level as the uppercase
`INFO`. -/
theorem c8_severity_case_counterexample :
    strStarts "[Info] hello".toList c8Line = false ∧
    strStarts "[INFO] hello".toList c8Line = true := by decide

/-- C8 (amended): the dictionary of `c8Input` loads successfully with
`system_id = 0x0001`, and decoding the frame whose payload is `00 01`
followed by the message id `6` as big-endian u16 produces exactly the line
`[INFO] hello` followed by the trailer `    From: 0x1(file://main.c:42)` —
the severity label is uppercase, not `[Info]`. -/
theorem c8_single_message_line :
    attempt_load_elf c8Input = .ok c8Info ∧
    c8Info.system_id = 1 ∧
    handle_payload [(c8Info.system_id, c8Info)] [0, 1, 0, 6] = .ok c8Line ∧
    c8Line = "[INFO] hello\n    From: 0x1(file://main.c:42)".toList := by decide

/-! ## C6 — member ids and relative positions -/

theorem mem_assocInsert {β : Type} (kv : Nat × β) (k : Nat) (v : β) :
    ∀ l : List (Nat × β), kv ∈ assocInsert k v l → kv = (k, v) ∨ kv ∈ l := by
  intro l
  induction l with
  | nil =>
    intro h
    simp only [assocInsert, List.mem_singleton] at h
    exact Or.inl h
  | cons p rest ih =>
    obtain ⟨k', v'⟩ := p
    intro h
    simp only [assocInsert] at h
    by_cases hk : k' = k
    · rw [if_pos hk] at h
      rcases List.mem_cons.mp h with h | h
      · exact Or.inl h
      · exact Or.inr (List.mem_cons_of_mem _ h)
    · rw [if_neg hk] at h
      rcases List.mem_cons.mp h with h | h
      · exact Or.inr (h ▸ List.mem_cons_self _ _)
      · rcases ih h with h | h
        · exact Or.inl h
        · exact Or.inr (List.mem_cons_of_mem _ h)

theorem mem_assocCollect {β : Type} (kv : Nat × β) (l : List (Nat × β))
    (h : kv ∈ assocCollect l) : kv ∈ l := by
  have key : ∀ (l : List (Nat × β)) (acc : List (Nat × β)),
      kv ∈ l.foldl (fun m p => assocInsert p.1 p.2 m) acc → kv ∈ acc ∨ kv ∈ l := by
    intro l
    induction l with
    | nil => intro acc h; exact Or.inl h
    | cons p rest ih =>
      intro acc h
      rcases ih (assocInsert p.1 p.2 acc) h with h | h
      · rcases mem_assocInsert kv p.1 p.2 acc h with h | h
        · exact Or.inr (by rw [h]; exact List.mem_cons_self _ _)
        · exact Or.inl h
      · exact Or.inr (List.mem_cons_of_mem _ h)
  rcases key l [] h with h | h
  · cases h
  · exact h

theorem collectExcept_map_ok {α β ε : Type} (f : α → Except ε β) :
    ∀ (l : List α) (out : List β),
      collectExcept (l.map f) = .ok out → ∀ p ∈ out, ∃ x ∈ l, f x = .ok p := by
  intro l
  induction l with
  | nil =>
    intro out h p hp
    simp only [List.map_nil, collectExcept, Except.ok.injEq] at h
    rw [← h] at hp
    cases hp
  | cons x rest ih =>
    intro out h p hp
    simp only [List.map_cons] at h
    cases hfx : f x with
    | error e =>
      rw [hfx] at h
      simp only [collectExcept] at h
      cases h
    | ok a =>
      rw [hfx] at h
      simp only [collectExcept] at h
      cases hc : collectExcept (rest.map f) with
      | error e => rw [hc] at h; simp only [Except.map] at h; cases h
      | ok t =>
        rw [hc] at h
        simp only [Except.map, Except.ok.injEq] at h
        rw [← h] at hp
        rcases List.mem_cons.mp hp with hpa | hpt
        · exact ⟨x, List.mem_cons_self _ _, by rw [hfx, hpa]⟩
        · obtain ⟨y, hy, hfy⟩ := ih t hc p hpt
          exact ⟨y, List.mem_cons_of_mem _ hy, hfy⟩

theorem parse_string_member_ok (sym : ElfSym) (p : Nat × ULogString)
    (h : parse_string_member sym = .ok p) :
    p.1 = sym.rel_pos % 65536 ∧ p.2.id = sym.rel_pos % 65536 := by
  unfold parse_string_member at h
  repeat' split at h
  all_goals cases h
  all_goals exact ⟨rfl, rfl⟩

theorem parse_message_member_ok (maxIds : List Nat) (sym : ElfSym) (p : Nat × ULogMessage)
    (h : parse_message_member maxIds sym = .ok p) :
    p.1 = sym.rel_pos % 65536 ∧ p.2.id = sym.rel_pos % 65536 := by
  unfold parse_message_member at h
  repeat' split at h
  all_goals cases h
  all_goals exact ⟨rfl, rfl⟩

/-- ELF input exhibiting the truncating cast of C6: its single string
member sits 65536 bytes past the start of the `string` sub-section. -/
def c6Input : ElfInput where
  symbols :=
    [("_sulog_meta".toList, 0), ("_eulog_meta".toList, 2),
     ("__ulog_sym_system_id".toList, 0),
     ("_sulog_string".toList, 2), ("_eulog_string".toList, 65539),
     ("__ulog_sym_f_1_v".toList, 65538),
     ("_sulog_level".toList, 65539), ("_eulog_level".toList, 65539),
     ("_eulog_level_emergency".toList, 65540), ("_eulog_level_alert".toList, 65541),
     ("_eulog_level_critical".toList, 65542), ("_eulog_level_error".toList, 65543),
     ("_eulog_level_warning".toList, 65544), ("_eulog_level_notice".toList, 65545),
     ("_eulog_level_info".toList, 65546), ("_eulog_level_debug".toList, 65547),
     ("_eulog_level_trace".toList, 65548),
     ("_sulog_argument".toList, 65549), ("_eulog_argument".toList, 65549)]
  data := [1, 0]
  little_endian := true

/-- The dictionary loaded from `c6Input` (the load succeeds; see the C6
counterexample theorem). -/
def c6Info : ULogSystemInfo :=
  ⟨[(0, ⟨0, "v".toList, ("f".toList, 1)⟩)], [], 1⟩

/-- C6 counterexample: `c6Input`'s only string member has relative position
65536, which does not fit in 16 bits, yet the load succeeds — it is not
rejected — and the member's id is the truncation `65536 as u16 = 0`, not
its relative position. -/
theorem c6_truncation_counterexample :
    get_ulog_section c6Input "string".toList =
      .ok [⟨"f_1_v".toList, 65538, 65536⟩] ∧
    attempt_load_elf c6Input = .ok c6Info ∧
    c6Info.ulog_strings = [(0, ⟨0, "v".toList, ("f".toList, 1)⟩)] := by decide

/-- C6 (amended): in every successfully loaded dictionary, each string and
each message entry comes from a member of its sub-section, with both its
map key and its id equal to the member's relative position reduced modulo
2^16 (the truncating `as u16` cast) — equal to the full relative position
exactly when that position fits in 16 bits. -/
theorem c6_id_is_truncated_rel_pos (inp : ElfInput) (info : ULogSystemInfo)
    (h : attempt_load_elf inp = .ok info) :
    (∀ kv ∈ info.ulog_strings, ∃ syms sym,
      get_ulog_section inp "string".toList = .ok syms ∧ sym ∈ syms ∧
      parse_string_member sym = .ok kv ∧
      kv.1 = sym.rel_pos % 65536 ∧ kv.2.id = sym.rel_pos % 65536 ∧
      (sym.rel_pos < 65536 → kv.1 = sym.rel_pos ∧ kv.2.id = sym.rel_pos)) ∧
    (∀ kv ∈ info.messages, ∃ syms sym,
      get_ulog_section inp "level".toList = .ok syms ∧ sym ∈ syms ∧
      kv.1 = sym.rel_pos % 65536 ∧ kv.2.id = sym.rel_pos % 65536 ∧
      (sym.rel_pos < 65536 → kv.1 = sym.rel_pos ∧ kv.2.id = sym.rel_pos)) := by
  unfold attempt_load_elf at h
  cases hmax : severity_level_max_ids inp with
  | error e => simp only [hmax] at h; exact Except.noConfusion h
  | ok maxIds =>
  simp only [hmax] at h
  cases hssec : get_ulog_section inp ("string".toList) with
  | error e => simp only [hssec] at h; exact Except.noConfusion h
  | ok stringSyms =>
  simp only [hssec] at h
  cases hscol : collectExcept (stringSyms.map parse_string_member) with
  | error e => simp only [hscol] at h; exact Except.noConfusion h
  | ok parsedStrings =>
  simp only [hscol] at h
  cases hlsec : get_ulog_section inp ("level".toList) with
  | error e => simp only [hlsec] at h; exact Except.noConfusion h
  | ok levelSyms =>
  simp only [hlsec] at h
  cases hmcol : collectExcept (levelSyms.map (parse_message_member maxIds)) with
  | error e => simp only [hmcol] at h; exact Except.noConfusion h
  | ok parsedMessages =>
  simp only [hmcol] at h
  cases hasec : get_ulog_section inp ("argument".toList) with
  | error e => simp only [hasec] at h; exact Except.noConfusion h
  | ok argSyms =>
  simp only [hasec] at h
  cases hacol : collectExcept (argSyms.map (parse_argument_member inp)) with
  | error e => simp only [hacol] at h; exact Except.noConfusion h
  | ok ulog_arguments =>
  simp only [hacol] at h
  cases hpair : pairAll ulog_arguments
      ((assocCollect parsedMessages).map fun kv => ((kv.2.location, kv.2.format), kv.1)) with
  | none => simp only [hpair] at h; exact Except.noConfusion h
  | some paired =>
  simp only [hpair] at h
  cases hmsec : get_ulog_section inp ("meta".toList) with
  | error e => simp only [hmsec] at h; exact Except.noConfusion h
  | ok metaSyms =>
  simp only [hmsec] at h
  cases hfind : metaSyms.find? (fun x => x.name == "system_id".toList) with
  | none => simp only [hfind] at h; exact Except.noConfusion h
  | some sysSym =>
  simp only [hfind] at h
  cases hsys : parse_u16_at inp.little_endian sysSym.addr inp.data with
  | error e => simp only [hsys] at h; exact Except.noConfusion h
  | ok system_id =>
  simp only [hsys, Except.ok.injEq] at h
  rw [← h]
  constructor
  · intro kv hkv
    have hkv' : kv ∈ parsedStrings := mem_assocCollect kv parsedStrings hkv
    obtain ⟨sym, hsymMem, hsymOk⟩ :=
      collectExcept_map_ok parse_string_member stringSyms parsedStrings hscol kv hkv'
    obtain ⟨h1, h2⟩ := parse_string_member_ok sym kv hsymOk
    refine ⟨stringSyms, sym, rfl, hsymMem, hsymOk, h1, h2, fun hlt => ?_⟩
    rw [h1, h2, Nat.mod_eq_of_lt hlt]
    exact ⟨rfl, rfl⟩
  · intro kv hkv
    obtain ⟨kv0, hkv0, hkveq⟩ := List.mem_map.mp hkv
    have hkv0' : kv0 ∈ parsedMessages := mem_assocCollect kv0 parsedMessages hkv0
    obtain ⟨sym, hsymMem, hsymOk⟩ :=
      collectExcept_map_ok (parse_message_member maxIds) levelSyms parsedMessages hmcol kv0 hkv0'
    obtain ⟨h1, h2⟩ := parse_message_member_ok maxIds sym kv0 hsymOk
    have hkv1 : kv.1 = kv0.1 ∧ kv.2.id = kv0.2.id := by
      rw [← hkveq]
      cases hf : paired.find? (fun p => p.1.2 == kv0.1) with
      | none => simp [hf]
      | some p => simp [hf]
    refine ⟨levelSyms, sym, rfl, hsymMem, hkv1.1.trans h1, hkv1.2.trans h2, fun hlt => ?_⟩
    rw [hkv1.1, hkv1.2, h1, h2, Nat.mod_eq_of_lt hlt]
    exact ⟨rfl, rfl⟩

/-- C6 witness: the amended theorem applied to `c6Input` and its loaded
dictionary, at the single string entry (key 0, id 0 — the truncation of
relative position 65536). -/
theorem c6_id_is_truncated_rel_pos_witness :
    ∃ syms sym, get_ulog_section c6Input "string".toList = .ok syms ∧ sym ∈ syms ∧
      parse_string_member sym = .ok (0, ⟨0, "v".toList, ("f".toList, 1)⟩) ∧
      (0 : Nat) = sym.rel_pos % 65536 ∧
      (⟨0, "v".toList, ("f".toList, 1)⟩ : ULogString).id = sym.rel_pos % 65536 ∧
      (sym.rel_pos < 65536 →
        (0 : Nat) = sym.rel_pos ∧
        (⟨0, "v".toList, ("f".toList, 1)⟩ : ULogString).id = sym.rel_pos) :=
  (c6_id_is_truncated_rel_pos c6Input c6Info (by decide)).1
    (0, ⟨0, "v".toList, ("f".toList, 1)⟩) (by decide)

/-! ## C1 — argument-to-message pairing -/

theorem ordIsLe_cmpN_iff (a b : Nat) : ordIsLe (cmpN a b) = true ↔ a ≤ b := by
  unfold cmpN
  split_ifs <;> simp [ordIsLe] <;> omega

theorem ordIsLe_arg_mid {x y : MessageIdentifier × Nat}
    (h : ordIsLe (cmpArgKey x y) = true) : ordIsLe (cmpMid x.1 y.1) = true := by
  cases hm : cmpMid x.1 y.1 with
  | lt => rfl
  | eq => rfl
  | gt =>
    exfalso
    have hg : cmpArgKey x y = .gt := by
      show (cmpMid x.1 y.1).then (cmpN x.2 y.2) = .gt
      rw [hm]
      rfl
    rw [hg] at h
    exact absurd h (by decide)

theorem ordIsLe_arg_seq {x y : MessageIdentifier × Nat} (he : x.1 = y.1)
    (h : ordIsLe (cmpArgKey x y) = true) : x.2 ≤ y.2 := by
  have hm : cmpMid x.1 y.1 = .eq := (cmpMid_eqIff x.1 y.1).mpr he
  have hred : cmpArgKey x y = cmpN x.2 y.2 := by
    show (cmpMid x.1 y.1).then (cmpN x.2 y.2) = _
    rw [hm]
    rfl
  rw [hred] at h
  exact (ordIsLe_cmpN_iff _ _).mp h

theorem midLe_lt_of_ne {k m : MessageIdentifier} (h : ordIsLe (cmpMid k m) = true)
    (hne : k ≠ m) : cmpMid k m = .lt := by
  cases hm : cmpMid k m with
  | lt => rfl
  | eq => exact absurd ((cmpMid_eqIff k m).mp hm) hne
  | gt => rw [hm] at h; exact absurd h (by decide)

theorem forall2_replicate_nil {α β : Type} (R : α → List β → Prop)
    (h : ∀ x, R x []) : ∀ l : List α, List.Forall₂ R l (List.replicate l.length []) := by
  intro l
  induction l with
  | nil => exact List.Forall₂.nil
  | cons x t iht => exact List.Forall₂.cons (h x) iht

theorem zipWith_append_replicate_nil {M A : Type} :
    ∀ msgs : List (M × List A),
      List.zipWith (fun (p : M × List A) part => (p.1, p.2 ++ part))
        msgs (List.replicate msgs.length []) = msgs := by
  intro msgs
  induction msgs with
  | nil => rfl
  | cons m t ih =>
    simp only [List.length_cons, List.replicate_succ, List.zipWith_cons_cons, ih,
      List.append_nil]

/-- Successful walks, characterized: the arguments split into contiguous
pieces, one per message in order, each piece carrying only that message's
identifier, and every piece is appended to its message's accumulator. -/
theorem pairWalk_some {A M : Type}
    (keyA : A → MessageIdentifier) (keyM : M → MessageIdentifier) :
    ∀ (fuel : Nat) (args : List A) (msgs res : List (M × List A)),
      pairWalk keyA keyM fuel args msgs = some res →
      ∃ parts : List (List A),
        parts.length = msgs.length ∧
        args = parts.flatten ∧
        List.Forall₂ (fun (p : M × List A) part => ∀ a ∈ part, keyA a = keyM p.1) msgs parts ∧
        res = List.zipWith (fun (p : M × List A) part => (p.1, p.2 ++ part)) msgs parts := by
  intro fuel
  induction fuel with
  | zero => intro args msgs res h; exact Option.noConfusion h
  | succ fuel ih =>
    intro args msgs res h
    cases args with
    | nil =>
      have h2 : some msgs = some res := h
      injection h2 with h2
      subst h2
      exact ⟨List.replicate msgs.length [], by simp, by simp,
        forall2_replicate_nil _ (fun x a ha => absurd ha (List.not_mem_nil a)) msgs,
        (zipWith_append_replicate_nil msgs).symm⟩
    | cons a args' =>
      cases msgs with
      | nil => exact Option.noConfusion h
      | cons mp msgs' =>
        obtain ⟨m, acc⟩ := mp
        have h2 : (if keyA a = keyM m then
            pairWalk keyA keyM fuel args' ((m, acc ++ [a]) :: msgs')
          else (pairWalk keyA keyM fuel (a :: args') msgs').map fun r => (m, acc) :: r)
            = some res := h
        by_cases hk : keyA a = keyM m
        · rw [if_pos hk] at h2
          obtain ⟨parts', hlen, hflat, hfa, hres⟩ := ih args' ((m, acc ++ [a]) :: msgs') res h2
          cases parts' with
          | nil => exact absurd hlen (by simp)
          | cons part0 rest =>
            refine ⟨(a :: part0) :: rest, by simpa using hlen, ?_, ?_, ?_⟩
            · simp only [List.flatten_cons] at hflat ⊢
              rw [hflat, List.cons_append]
            · cases hfa with
              | cons h0 hrest =>
                refine List.Forall₂.cons ?_ hrest
                intro x hx
                rcases List.mem_cons.mp hx with rfl | hx'
                · exact hk
                · exact h0 x hx'
            · rw [hres]
              simp only [List.zipWith_cons_cons, List.append_assoc, List.singleton_append]
        · rw [if_neg hk] at h2
          cases hw : pairWalk keyA keyM fuel (a :: args') msgs' with
          | none => rw [hw] at h2; exact Option.noConfusion h2
          | some r =>
            rw [hw] at h2
            injection h2 with h2
            obtain ⟨parts', hlen, hflat, hfa, hres⟩ := ih (a :: args') msgs' r hw
            refine ⟨[] :: parts', by simpa using hlen, by simpa using hflat, ?_, ?_⟩
            · exact List.Forall₂.cons (fun x hx => absurd hx (List.not_mem_nil x)) hfa
            · rw [← h2, hres]
              simp only [List.zipWith_cons_cons, List.append_nil]

/-- A walk with an argument that matches no message fails. -/
theorem pairWalk_none_of_unmatched {A M : Type}
    (keyA : A → MessageIdentifier) (keyM : M → MessageIdentifier) :
    ∀ (fuel : Nat) (args : List A) (msgs : List (M × List A)),
      (∃ a ∈ args, ∀ p ∈ msgs, keyM p.1 ≠ keyA a) →
      pairWalk keyA keyM fuel args msgs = none := by
  intro fuel
  induction fuel with
  | zero => intro args msgs _; rfl
  | succ fuel ih =>
    intro args msgs hun
    obtain ⟨a, ha, hnomatch⟩ := hun
    cases args with
    | nil => cases ha
    | cons a0 args' =>
      cases msgs with
      | nil => rfl
      | cons mp msgs' =>
        obtain ⟨m, acc⟩ := mp
        show (if keyA a0 = keyM m then
            pairWalk keyA keyM fuel args' ((m, acc ++ [a0]) :: msgs')
          else (pairWalk keyA keyM fuel (a0 :: args') msgs').map fun r => (m, acc) :: r) = none
        by_cases hk : keyA a0 = keyM m
        · rw [if_pos hk]
          have hane : a ≠ a0 := by
            intro he
            exact hnomatch (m, acc) (List.mem_cons_self _ _) (by rw [he, hk])
          have ha' : a ∈ args' := by
            rcases List.mem_cons.mp ha with he | hmem
            · exact absurd he hane
            · exact hmem
          refine ih args' ((m, acc ++ [a0]) :: msgs') ⟨a, ha', ?_⟩
          intro p hp
          rcases List.mem_cons.mp hp with rfl | hp'
          · exact hnomatch (m, acc) (List.mem_cons_self _ _)
          · exact hnomatch p (List.mem_cons_of_mem _ hp')
        · rw [if_neg hk]
          rw [ih (a0 :: args') msgs'
            ⟨a, ha, fun p hp => hnomatch p (List.mem_cons_of_mem _ hp)⟩]
          rfl

/-- With both lists sorted by identifier and every argument matched by some
message, the walk succeeds. -/
theorem pairWalk_isSome_of_matched {A M : Type}
    (keyA : A → MessageIdentifier) (keyM : M → MessageIdentifier) :
    ∀ (fuel : Nat) (args : List A) (msgs : List (M × List A)),
      args.length + msgs.length < fuel →
      args.Pairwise (fun x y => ordIsLe (cmpMid (keyA x) (keyA y)) = true) →
      msgs.Pairwise (fun x y => ordIsLe (cmpMid (keyM x.1) (keyM y.1)) = true) →
      (∀ a ∈ args, ∃ p ∈ msgs, keyM p.1 = keyA a) →
      (pairWalk keyA keyM fuel args msgs).isSome = true := by
  intro fuel
  induction fuel with
  | zero => intro args msgs hlen _ _ _; omega
  | succ fuel ih =>
    intro args msgs hlen hargs hmsgs hmatch
    cases args with
    | nil => rfl
    | cons a0 args' =>
      cases msgs with
      | nil =>
        obtain ⟨p, hp, _⟩ := hmatch a0 (List.mem_cons_self _ _)
        cases hp
      | cons mp msgs' =>
        obtain ⟨m, acc⟩ := mp
        show (if keyA a0 = keyM m then
            pairWalk keyA keyM fuel args' ((m, acc ++ [a0]) :: msgs')
          else (pairWalk keyA keyM fuel (a0 :: args') msgs').map
            fun r => (m, acc) :: r).isSome = true
        by_cases hk : keyA a0 = keyM m
        · rw [if_pos hk]
          apply ih args' ((m, acc ++ [a0]) :: msgs')
          · simp only [List.length_cons] at hlen ⊢
            omega
          · exact hargs.of_cons
          · rw [List.pairwise_cons] at hmsgs ⊢
            exact ⟨fun y hy => hmsgs.1 y hy, hmsgs.2⟩
          · intro x hx
            obtain ⟨p, hp, hkey⟩ := hmatch x (List.mem_cons_of_mem _ hx)
            rcases List.mem_cons.mp hp with rfl | hp'
            · exact ⟨(m, acc ++ [a0]), List.mem_cons_self _ _, hkey⟩
            · exact ⟨p, List.mem_cons_of_mem _ hp', hkey⟩
        · rw [if_neg hk]
          have hrec : (pairWalk keyA keyM fuel (a0 :: args') msgs').isSome = true := by
            apply ih
            · simp only [List.length_cons] at hlen ⊢
              omega
            · exact hargs
            · exact hmsgs.of_cons
            · intro x hx
              rcases List.mem_cons.mp hx with rfl | hx'
              · obtain ⟨p, hp, hkey⟩ := hmatch x (List.mem_cons_self _ _)
                rcases List.mem_cons.mp hp with rfl | hp'
                · exact absurd hkey.symm hk
                · exact ⟨p, hp', hkey⟩
              · obtain ⟨p, hp, hkey⟩ := hmatch x (List.mem_cons_of_mem _ hx')
                rcases List.mem_cons.mp hp with rfl | hp'
                · exfalso
                  obtain ⟨q, hq, hqkey⟩ := hmatch a0 (List.mem_cons_self _ _)
                  rcases List.mem_cons.mp hq with rfl | hq'
                  · exact hk hqkey.symm
                  · have hmq : ordIsLe (cmpMid (keyM m) (keyM q.1)) = true := by
                      rw [List.pairwise_cons] at hmsgs
                      exact hmsgs.1 q hq'
                    rw [hqkey] at hmq
                    have hlt : cmpMid (keyM m) (keyA a0) = .lt :=
                      midLe_lt_of_ne hmq (fun he => hk he.symm)
                    have hax : ordIsLe (cmpMid (keyA a0) (keyA x)) = true := by
                      rw [List.pairwise_cons] at hargs
                      exact hargs.1 x hx'
                    have hkey' : keyM m = keyA x := hkey
                    rw [← hkey'] at hax
                    have hsw := cmpMid_swap (keyA a0) (keyM m)
                    rw [hlt] at hsw
                    cases ho : cmpMid (keyA a0) (keyM m) with
                    | lt => rw [ho] at hsw; exact Ordering.noConfusion hsw
                    | eq => rw [ho] at hsw; exact Ordering.noConfusion hsw
                    | gt => rw [ho] at hax; exact absurd hax (by decide)
                · exact ⟨p, hp', hkey⟩
          cases hw : pairWalk keyA keyM fuel (a0 :: args') msgs' with
          | none => rw [hw] at hrec; exact absurd hrec (by simp)
          | some r => rfl

theorem zipWith_map_pair_nil {M A : Type} :
    ∀ (ms : List M) (parts : List (List A)),
      List.zipWith (fun (p : M × List A) part => (p.1, p.2 ++ part))
        (ms.map fun m => (m, ([] : List A))) parts = ms.zip parts := by
  intro ms
  induction ms with
  | nil => intro parts; rfl
  | cons m t ih =>
    intro parts
    cases parts with
    | nil => rfl
    | cons p ps =>
      simp only [List.map_cons, List.zipWith_cons_cons, List.zip_cons_cons, ih,
        List.nil_append]

/-- Successful runs of the sorting-and-pairing stage: the result is the
sorted message list zipped with a partition of the sorted argument list,
each block carrying its message's identifier. -/
theorem pairAll_some_spec (entries : List ArgEntry) (msgs : List (MessageIdentifier × Nat))
    (res : List ((MessageIdentifier × Nat) × List ArgEntry))
    (h : pairAll entries msgs = some res) :
    ∃ parts : List (List ArgEntry),
      res = (insertionSort (fun a b => ordIsLe (cmpMid a.1 b.1)) msgs).zip parts ∧
      parts.length = (insertionSort (fun a b => ordIsLe (cmpMid a.1 b.1)) msgs).length ∧
      parts.flatten = insertionSort (fun a b => ordIsLe (cmpArgKey a.1 b.1)) entries ∧
      List.Forall₂ (fun (m : MessageIdentifier × Nat) part => ∀ a ∈ part, a.1.1 = m.1)
        (insertionSort (fun a b => ordIsLe (cmpMid a.1 b.1)) msgs) parts := by
  obtain ⟨parts, hlen, hflat, hfa, hres⟩ :=
    pairWalk_some (fun e : ArgEntry => e.1.1) Prod.fst _ _ _ _ h
  refine ⟨parts, ?_, ?_, hflat.symm, ?_⟩
  · rw [hres, zipWith_map_pair_nil]
  · rw [hlen]
    simp
  · rw [List.forall₂_map_left_iff] at hfa
    exact hfa

/-- C1: for every run of the pairing stage of `attempt_load_elf` that
succeeds, the message sequence of the result is a permutation of the input
messages, the concatenation of the per-message argument lists is a
permutation of the input argument entries (so each argument lands in
exactly one message's list and the total count is preserved), every
argument sits in a message whose `(Location, format)` identifier equals its
own, and within each message the arguments appear in ascending
sequence-number order (the pairing never consults the symbol addresses).
The stage fails — `attempt_load_elf` maps the `none` to
`OrphanedArguments` — exactly when some argument entry's identifier matches
no message, and a walk whose message sequence is exhausted while arguments
remain returns `none` at once. -/
theorem c1_argument_pairing (entries : List ArgEntry)
    (msgs : List (MessageIdentifier × Nat)) :
    (∀ res, pairAll entries msgs = some res →
      (res.map Prod.fst).Perm msgs ∧
      ((res.map Prod.snd).flatten).Perm entries ∧
      ((res.map Prod.snd).flatten).length = entries.length ∧
      (∀ p ∈ res, ∀ a ∈ p.2, a.1.1 = p.1.1) ∧
      (∀ p ∈ res, p.2.Pairwise fun x y => x.1.2 ≤ y.1.2)) ∧
    (pairAll entries msgs = none ↔ ∃ e ∈ entries, ∀ m ∈ msgs, m.1 ≠ e.1.1) ∧
    (∀ (fuel : Nat) (a : ArgEntry) (args : List ArgEntry),
      pairWalk (fun e : ArgEntry => e.1.1)
        (Prod.fst : MessageIdentifier × Nat → MessageIdentifier) fuel (a :: args)
        ([] : List ((MessageIdentifier × Nat) × List ArgEntry)) = none) := by
  have hltA : ∀ a b d : ArgEntry, ordIsLe (cmpArgKey a.1 b.1) = true →
      ordIsLe (cmpArgKey b.1 d.1) = true → ordIsLe (cmpArgKey a.1 d.1) = true :=
    fun a b d => ordIsLe_trans cmpArgKey_eqIff cmpArgKey_ltTrans a.1 b.1 d.1
  have htotA : ∀ a b : ArgEntry,
      (ordIsLe (cmpArgKey a.1 b.1) || ordIsLe (cmpArgKey b.1 a.1)) = true :=
    fun a b => ordIsLe_total cmpArgKey_swap a.1 b.1
  have hltM : ∀ a b d : MessageIdentifier × Nat, ordIsLe (cmpMid a.1 b.1) = true →
      ordIsLe (cmpMid b.1 d.1) = true → ordIsLe (cmpMid a.1 d.1) = true :=
    fun a b d => ordIsLe_trans cmpMid_eqIff cmpMid_ltTrans a.1 b.1 d.1
  have htotM : ∀ a b : MessageIdentifier × Nat,
      (ordIsLe (cmpMid a.1 b.1) || ordIsLe (cmpMid b.1 a.1)) = true :=
    fun a b => ordIsLe_total cmpMid_swap a.1 b.1
  have hpermA := insertionSort_perm (fun a b : ArgEntry => ordIsLe (cmpArgKey a.1 b.1)) entries
  have hpwA := insertionSort_pairwise hltA htotA entries
  have hpermM := insertionSort_perm
    (fun a b : MessageIdentifier × Nat => ordIsLe (cmpMid a.1 b.1)) msgs
  have hpwM := insertionSort_pairwise hltM htotM msgs
  refine ⟨?_, ⟨?_, ?_⟩, fun fuel a args => by cases fuel <;> rfl⟩
  · intro res hres
    obtain ⟨parts, hzip, hlen, hflat, hfa⟩ := pairAll_some_spec entries msgs res hres
    have hmapfst : res.map Prod.fst =
        insertionSort (fun a b => ordIsLe (cmpMid a.1 b.1)) msgs := by
      rw [hzip]
      exact List.map_fst_zip _ _ (le_of_eq hlen.symm)
    have hmapsnd : res.map Prod.snd = parts := by
      rw [hzip]
      exact List.map_snd_zip _ _ (le_of_eq hlen)
    have hflatperm : ((res.map Prod.snd).flatten).Perm entries := by
      rw [hmapsnd, hflat]
      exact hpermA
    refine ⟨?_, hflatperm, hflatperm.length_eq, ?_, ?_⟩
    · rw [hmapfst]
      exact hpermM
    · intro p hp
      rw [hzip] at hp
      exact (List.forall₂_iff_zip.mp hfa).2 hp
    · intro p hp
      have hp2 : p.2 ∈ parts := by
        rw [hzip] at hp
        exact (List.of_mem_zip hp).2
      have hsub : p.2.Sublist parts.flatten := List.sublist_flatten_of_mem hp2
      rw [hflat] at hsub
      have hpw : p.2.Pairwise
          (fun x y : ArgEntry => ordIsLe (cmpArgKey x.1 y.1) = true) :=
        hpwA.sublist hsub
      have hkeys : ∀ a ∈ p.2, a.1.1 = p.1.1 := by
        rw [hzip] at hp
        exact (List.forall₂_iff_zip.mp hfa).2 hp
      refine hpw.imp_of_mem ?_
      intro x y hx hy hxy
      exact ordIsLe_arg_seq ((hkeys x hx).trans (hkeys y hy).symm) hxy
  · intro hnone
    by_contra hcon
    push_neg at hcon
    have hmatch : ∀ a ∈ insertionSort
        (fun a b : ArgEntry => ordIsLe (cmpArgKey a.1 b.1)) entries,
        ∃ p ∈ (insertionSort (fun a b : MessageIdentifier × Nat =>
            ordIsLe (cmpMid a.1 b.1)) msgs).map fun m => (m, ([] : List ArgEntry)),
          p.1.1 = a.1.1 := by
      intro a ha
      obtain ⟨m, hm, hmk⟩ := hcon a (hpermA.mem_iff.mp ha)
      exact ⟨(m, []), List.mem_map.mpr ⟨m, hpermM.mem_iff.mpr hm, rfl⟩, hmk⟩
    have hsome := pairWalk_isSome_of_matched (fun e : ArgEntry => e.1.1) Prod.fst
      ((insertionSort (fun a b : ArgEntry => ordIsLe (cmpArgKey a.1 b.1)) entries).length +
        ((insertionSort (fun a b : MessageIdentifier × Nat =>
          ordIsLe (cmpMid a.1 b.1)) msgs).map fun m => (m, ([] : List ArgEntry))).length + 1)
      (insertionSort (fun a b : ArgEntry => ordIsLe (cmpArgKey a.1 b.1)) entries)
      ((insertionSort (fun a b : MessageIdentifier × Nat =>
        ordIsLe (cmpMid a.1 b.1)) msgs).map fun m => (m, ([] : List ArgEntry)))
      (by omega)
      (hpwA.imp fun {a b} hab => ordIsLe_arg_mid hab)
      ((List.pairwise_map).mpr hpwM)
      hmatch
    have hsome2 : (pairAll entries msgs).isSome = true := hsome
    rw [hnone] at hsome2
    exact absurd hsome2 (by simp)
  · intro hun
    obtain ⟨e, he, hnom⟩ := hun
    have hun' : ∀ p ∈ (insertionSort (fun a b : MessageIdentifier × Nat =>
        ordIsLe (cmpMid a.1 b.1)) msgs).map fun m => (m, ([] : List ArgEntry)),
        p.1.1 ≠ e.1.1 := by
      intro p hp
      obtain ⟨m, hm, hpe⟩ := List.mem_map.mp hp
      rw [← hpe]
      exact hnom m (hpermM.mem_iff.mp hm)
    exact pairWalk_none_of_unmatched (fun e : ArgEntry => e.1.1) Prod.fst _ _ _
      ⟨e, hpermA.mem_iff.mpr he, hun'⟩

/-- Concrete pairing scenario for the C1 witness: two argument entries for
the same message, listed out of sequence order. -/
def c1Mid : MessageIdentifier := (("f".toList, 1), "x".toList)

def c1Entries : List ArgEntry :=
  [((c1Mid, 2), .bool none), ((c1Mid, 1), .uint8 none)]

def c1Msgs : List (MessageIdentifier × Nat) := [(c1Mid, 5)]

def c1Res : List ((MessageIdentifier × Nat) × List ArgEntry) :=
  [((c1Mid, 5), [((c1Mid, 1), .uint8 none), ((c1Mid, 2), .bool none)])]

/-- C1 witness: the theorem applied to the concrete scenario — the pairing
succeeds with both entries on the single message, re-ordered into ascending
sequence order. -/
theorem c1_argument_pairing_witness :
    (c1Res.map Prod.fst).Perm c1Msgs ∧
    ((c1Res.map Prod.snd).flatten).Perm c1Entries ∧
    ((c1Res.map Prod.snd).flatten).length = c1Entries.length ∧
    List.Pairwise (fun x y : ArgEntry => x.1.2 ≤ y.1.2)
      [((c1Mid, 1), .uint8 none), ((c1Mid, 2), .bool none)] := by
  obtain ⟨h1, h2, h3, h4, h5⟩ :=
    (c1_argument_pairing c1Entries c1Msgs).1 c1Res (by rfl)
  exact ⟨h1, h2, h3,
    h5 ((c1Mid, 5), [((c1Mid, 1), .uint8 none), ((c1Mid, 2), .bool none)]) (by decide)⟩
